import Mathlib

/-!
Sepolia-transfer: a verification development for `main.go`.

The program is a linear script around the go-ethereum client.  Two pieces of it
carry logic of their own:

* `weiToEther`, which divides a `*big.Int` by `1e18` in `math/big` floating point and
  prints the quotient with 18 decimals;
* `bindWaitMined`, the receipt polling loop, and `main`, the sequence of fallible steps.

The Go functions are embedded as Lean functions.  The standard-library operations that
`weiToEther` calls (`big.Float.SetInt`, `big.NewFloat`, `big.Float.Quo`,
`big.Float.Text`) are embedded from their documented behaviour: results correctly
rounded to the destination precision, ties to even, with exponents between `MinExp` and
`MaxExp`, outside of which a result becomes zero or `Inf`.  A Go panic is an `Except.error`.
The polling loop does not terminate in general, so it is observed for a number of
iterations (`fuel`), and its events are recorded in a trace.
-/

namespace SepoliaTransfer

/-! ## `math/big` -/

/-- Helper of `bitLen`: halve until zero, counting the steps. -/
def bitLenAux : Nat → Nat → Nat
  | 0, _ => 0
  | fuel + 1, n => if n = 0 then 0 else bitLenAux fuel (n / 2) + 1

/-- The `BitLen` of a magnitude: the number of binary digits of `n`, with `bitLen 0 = 0`. -/
def bitLen (n : Nat) : Nat := bitLenAux n n

/-- The three forms of a `big.Float` value. -/
inductive Form where
  | zero
  | finite
  | inf
  deriving DecidableEq, Repr

/-- A `big.Float`: precision in bits, form, sign, and for a finite value the magnitude
`mant * 2 ^ exp`.  (Go keeps the mantissa normalised in `[0.5, 1)`; here it is an integer
and the exponent is adjusted accordingly, which denotes the same numbers.)  The rounding
mode is always the zero value `ToNearestEven`, the only one `main.go` uses. -/
structure BigFloat where
  prec : Nat
  form : Form
  neg : Bool
  mant : Nat
  exp : Int
  deriving DecidableEq, Repr

/-- The panic value of `math/big` for an undefined result. -/
structure ErrNaN where
  msg : String
  deriving DecidableEq, Repr

/-- A finite `float64`: `mant * 2 ^ exp` with `mant < 2 ^ 53`, and a sign. -/
structure Float64 where
  neg : Bool
  mant : Nat
  exp : Int
  deriving DecidableEq, Repr

/-- The `float64` literal `1e18`.  It is exact: `10 ^ 18 = 5 ^ 18 * 2 ^ 18` and
`5 ^ 18 < 2 ^ 53`. -/
def lit1e18 : Float64 := ⟨false, 5 ^ 18, 18⟩

/-- Rounding of the fraction `num / den` to the nearest integer, ties to the even one
(`ToNearestEven`, and the tie rule of `decimal.round`). -/
def roundHalfEven (num den : Nat) : Nat :=
  let q := num / den
  let r := num % den
  if den < 2 * r ∨ (2 * r = den ∧ q % 2 = 1) then q + 1 else q

/-- The constant `big.MaxExp`, the largest exponent of a `big.Float` (`math.MaxInt32`). -/
def MaxExp : Int := 2147483647

/-- The constant `big.MinExp`, the smallest exponent of a `big.Float` (`math.MinInt32`). -/
def MinExp : Int := -2147483648

/-- Numerator and denominator of `mx / my * 2 ^ k`. -/
def scaled (mx my : Nat) (k : Int) : Nat × Nat :=
  if 0 ≤ k then (mx * 2 ^ k.toNat, my) else (mx, my * 2 ^ (-k).toNat)

/-- The method `setExpAndRound` followed by `round`, in the mode `ToNearestEven`.  The value is
`0.M * 2 ^ exp` with a normalised mantissa `0.5 ≤ 0.M < 1`, given by `num / den = 0.M * 2 ^ prec`.
An exponent below `MinExp` underflows to zero and one above `MaxExp` overflows to `Inf`;
otherwise the mantissa is rounded to `prec` bits, and a carry out of it at the exponent
`MaxExp` overflows to `Inf` as well. -/
def setExpAndRound (prec : Nat) (neg : Bool) (exp : Int) (num den : Nat) : BigFloat :=
  if exp < MinExp then
    ⟨prec, Form.zero, neg, 0, 0⟩
  else if MaxExp < exp then
    ⟨prec, Form.inf, neg, 0, 0⟩
  else
    let m := roundHalfEven num den
    if m = 2 ^ prec ∧ MaxExp ≤ exp then
      ⟨prec, Form.inf, neg, 0, 0⟩
    else
      ⟨prec, Form.finite, neg, m, exp - prec⟩

/-- The method `(*big.Float).SetInt` on a fresh receiver.  With `bits := uint32(x.BitLen())`
the precision becomes `max bits 64` and the exponent `bits`; as long as the bit length fits,
the value of `x` is taken over exactly. -/
def SetInt (x : Int) : BigFloat :=
  let len := bitLen x.natAbs
  let bits := len % 2 ^ 32
  let prec := max bits 64
  if x = 0 then
    ⟨prec, Form.zero, false, 0, 0⟩
  else
    let s := scaled x.natAbs 1 ((prec : Int) - (len : Int))
    setExpAndRound prec (decide (x < 0)) (bits : Int) s.1 s.2

/-- The function `big.NewFloat` on a finite `float64`: precision 53, value exact. -/
def NewFloat (x : Float64) : BigFloat :=
  ⟨53, if x.mant = 0 then Form.zero else Form.finite, x.neg, x.mant, x.exp⟩

/-- The binary shift `k` for which `mx / my * 2 ^ k` lies in `[2 ^ (prec - 1), 2 ^ prec)`:
rounding that number to an integer is rounding `mx / my` to `prec` bits. -/
def quoShift (prec mx my : Nat) : Int :=
  let k0 : Int := (prec : Int) + (bitLen my : Int) - (bitLen mx : Int)
  let s := scaled mx my k0
  if 2 ^ prec ≤ s.1 / s.2 then k0 - 1 else k0

/-- The method `uquo`: the quotient of two finite non-zero values, rounded to `prec` bits
to nearest even.  With the shift `k`, the quotient is `0.M * 2 ^ (prec + x.exp - y.exp - k)`
for the mantissa `0.M * 2 ^ prec = x.mant / y.mant * 2 ^ k`. -/
def uquo (prec : Nat) (neg : Bool) (x y : BigFloat) : BigFloat :=
  let k := quoShift prec x.mant y.mant
  let s := scaled x.mant y.mant k
  setExpAndRound prec neg ((prec : Int) + x.exp - y.exp - k) s.1 s.2

/-- The method `(*big.Float).Quo` on a fresh receiver: the precision becomes the larger of
the operands' precisions and the quotient is rounded to it.  `0 / 0` and `Inf / Inf`
panic with `ErrNaN`. -/
def Quo (x y : BigFloat) : Except ErrNaN BigFloat :=
  let prec := max x.prec y.prec
  let neg := x.neg != y.neg
  if x.form = Form.finite ∧ y.form = Form.finite then
    Except.ok (uquo prec neg x y)
  else if (x.form = Form.zero ∧ y.form = Form.zero) ∨ (x.form = Form.inf ∧ y.form = Form.inf) then
    Except.error ⟨"division of zero by zero or infinity by infinity"⟩
  else if x.form = Form.zero ∨ y.form = Form.inf then
    Except.ok ⟨prec, Form.zero, neg, 0, 0⟩
  else
    Except.ok ⟨prec, Form.inf, neg, 0, 0⟩

/-- The value of `x` in units of `10 ^ (-prec)`, rounded to an integer, ties to even:
the exact decimal expansion of `x` (a dyadic number has one) cut by `decimal.round` at
`prec` digits after the point. -/
def decimalRound (x : BigFloat) (prec : Nat) : Nat :=
  match x.form with
  | Form.finite =>
    if 0 ≤ x.exp then x.mant * 2 ^ x.exp.toNat * 10 ^ prec
    else roundHalfEven (x.mant * 10 ^ prec) (2 ^ (-x.exp).toNat)
  | _ => 0

/-- The `prec` digits after the point of the number `r / 10 ^ prec` (the loop of `fmtF`). -/
def fracDigits (prec r : Nat) : List Char :=
  (List.range prec).map (fun i => Nat.digitChar (r / 10 ^ (prec - 1 - i) % 10))

/-- The function `fmtF`: integer part, then for `0 < prec` a point and `prec` digits. -/
def fmtF (prec r : Nat) : List Char :=
  Nat.toDigits 10 (r / 10 ^ prec) ++ (if 0 < prec then '.' :: fracDigits prec r else [])

/-- The method `(*big.Float).Text` with format `f` and `prec` digits after the point. -/
def Text (x : BigFloat) (prec : Nat) : String :=
  String.mk <|
    (if x.neg then ['-'] else []) ++
      (match x.form with
       | Form.inf => (if x.neg then [] else ['+']) ++ ['I', 'n', 'f']
       | _ => fmtF prec (decimalRound x prec))

/-! ## `main.go` -/

/-- Go: `weiToEther`, converts Wei to Ether for readability.  The result is an error when
`Quo` panics. -/
def weiToEther (wei : Int) : Except ErrNaN String :=
  match Quo (SetInt wei) (NewFloat lit1e18) with
  | Except.ok ether => Except.ok (Text ether 18)
  | Except.error e => Except.error e

/-! ## The receipt polling loop -/

/-- A Go `error` value, by its message. -/
abbrev GoError := String

/-- The fields of `types.Receipt` that `main.go` reads. -/
structure Receipt where
  Status : Nat
  BlockNumber : Nat
  deriving DecidableEq, Repr

/-- The constant `types.ReceiptStatusFailed`. -/
def ReceiptStatusFailed : Nat := 0

/-- The constant `time.Second`, a `time.Duration` in nanoseconds. -/
def Second : Nat := 1000000000

/-- A `context.Context` as the polling loop observes it: whether the channel `ctx.Done()`
is ready when the `select` of iteration `n` runs, and what `ctx.Err()` returns there. -/
structure Context where
  Done : Nat → Bool
  Err : Nat → Option GoError

/-- The context `context.Background()`: its `Done` channel is nil, never ready, and its `Err`
is always nil. -/
def Background : Context := ⟨fun _ => false, fun _ => none⟩

/-- The receipt endpoint of the client: the result of the `n`-th call (from 0) of
`client.TransactionReceipt` for a transaction hash.  The call returns either a receipt with
a nil error, or an error. -/
structure Client where
  TransactionReceipt : String → Nat → Except GoError Receipt

/-- What the loop does to the outside, in order. -/
inductive Event where
  | lookup (hash : String) (n : Nat)
  | println (line : String)
  | select (n : Nat)
  | sleep (d : Nat)
  deriving DecidableEq, Repr

/-- The loop after some iterations: still running, about to start iteration `n`, or returned
with the pair `(receipt, err)`.  Both carry the events so far. -/
inductive Progress where
  | running (n : Nat) (trace : List Event)
  | returned (receipt : Option Receipt) (err : Option GoError) (trace : List Event)
  deriving DecidableEq, Repr

/-- One iteration of the `for` loop of `bindWaitMined`, the `n`-th (from 0). -/
def loopBody (ctx : Context) (client : Client) (hash : String) (n : Nat) (trace : List Event) :
    Progress :=
  let trace := trace ++ [Event.lookup hash n]
  match client.TransactionReceipt hash n with
  | Except.ok receipt => Progress.returned (some receipt) none trace
  | Except.error _ =>
    let trace := trace ++ [Event.println "Waiting for transaction to be mined...", Event.select n]
    if ctx.Done n then Progress.returned none (ctx.Err n) trace
    else Progress.running (n + 1) (trace ++ [Event.sleep Second])

/-- The loop of `bindWaitMined` from iteration `n` on, for at most `fuel` iterations. -/
def bindWaitMinedFrom (ctx : Context) (client : Client) (hash : String) :
    Nat → Nat → List Event → Progress
  | 0, n, trace => Progress.running n trace
  | fuel + 1, n, trace =>
    match loopBody ctx client hash n trace with
    | Progress.running n2 trace2 => bindWaitMinedFrom ctx client hash fuel n2 trace2
    | Progress.returned receipt err trace2 => Progress.returned receipt err trace2

/-- Go: `bindWaitMined`, observed for at most `fuel` iterations of its loop. -/
def bindWaitMined (ctx : Context) (client : Client) (hash : String) (fuel : Nat) : Progress :=
  bindWaitMinedFrom ctx client hash fuel 0 []

/-- The events of `n` iterations that all failed and were not cancelled. -/
def failedRounds (hash : String) : Nat → List Event
  | 0 => []
  | n + 1 => failedRounds hash n ++
      [Event.lookup hash n, Event.println "Waiting for transaction to be mined...",
        Event.select n, Event.sleep Second]

/-- The lookups in a trace. -/
def lookups (t : List Event) : List Nat :=
  t.filterMap (fun e => match e with | Event.lookup _ n => some n | _ => none)

/-- The sleeps in a trace, by duration. -/
def sleeps (t : List Event) : List Nat :=
  t.filterMap (fun e => match e with | Event.sleep d => some d | _ => none)

/-! ## The program -/

/-- The steps of `main` that can end the program. -/
inductive Step where
  | Dial
  | HexToECDSA
  | PublicKeyCast
  | PendingNonceAt
  | SuggestGasPrice
  | NetworkID
  | SignTx
  | SendTransaction
  | WaitMined
  | StatusCheck
  deriving DecidableEq, Repr

/-- The steps in program order. -/
def stepOrder : List Step :=
  [Step.Dial, Step.HexToECDSA, Step.PublicKeyCast, Step.PendingNonceAt, Step.SuggestGasPrice,
    Step.NetworkID, Step.SignTx, Step.SendTransaction, Step.WaitMined, Step.StatusCheck]

/-- What `main` does to the outside, in order: it starts a step, prints a line (the format
and its rendered arguments), polls inside `bindWaitMined`, or runs the deferred
`client.Close()`. -/
inductive MainEvent where
  | call (s : Step)
  | print (format : String) (args : List String)
  | wait (e : Event)
  | close
  deriving DecidableEq, Repr

/-- How a run of `main` ends: `log.Fatal`/`log.Fatalf` (log and `os.Exit(1)`, which skips
the deferred `client.Close()`), a normal return, a Go panic (both run the deferred call), or
still polling when the observation ends. -/
inductive Exit where
  | fatal (format : String) (args : List String)
  | done
  | panic (msg : String)
  | polling
  deriving DecidableEq, Repr

/-- A run of `main`: its events and its end. -/
structure Run where
  trace : List MainEvent
  exit : Exit
  deriving DecidableEq, Repr

/-- Everything outside the program: the result each library call gives when `main` makes
it, every fallible step being a result that may fail.  `fromAddress` and `toAddress` are the
hexadecimal renderings `main` prints, and `SignTx` gives the hash of the signed transaction. -/
structure World where
  Dial : Except GoError Unit
  HexToECDSA : Except GoError Unit
  PublicKeyIsECDSA : Bool
  fromAddress : String
  toAddress : String
  PendingNonceAt : Except GoError Nat
  SuggestGasPrice : Except GoError Nat
  NetworkID : Except GoError Nat
  SignTx : Except GoError String
  SendTransaction : Option GoError
  client : Client

/-- Go: `main`, with the polling loop observed for at most `fuel` iterations. -/
def main (w : World) (fuel : Nat) : Run :=
  let t := [MainEvent.call Step.Dial]
  match w.Dial with
  | Except.error err => ⟨t, Exit.fatal "Failed to connect to the Ethereum client: %v" [err]⟩
  | Except.ok _ =>
  let t := t ++ [MainEvent.print "Successfully connected to Sepolia Ethereum network\n" [],
    MainEvent.call Step.HexToECDSA]
  match w.HexToECDSA with
  | Except.error err => ⟨t, Exit.fatal "Invalid private key: %v" [err]⟩
  | Except.ok _ =>
  let t := t ++ [MainEvent.call Step.PublicKeyCast]
  match w.PublicKeyIsECDSA with
  | false => ⟨t, Exit.fatal "Failed to cast public key to ECDSA" []⟩
  | true =>
  let t := t ++ [MainEvent.print "From Address: %s\n" [w.fromAddress],
    MainEvent.print "To Address: %s\n" [w.toAddress], MainEvent.call Step.PendingNonceAt]
  match w.PendingNonceAt with
  | Except.error err => ⟨t, Exit.fatal "Failed to get nonce: %v" [err]⟩
  | Except.ok nonce =>
  let t := t ++ [MainEvent.print "Nonce: %d\n" [toString nonce]]
  let value : Int := 10000000000000000
  match weiToEther value with
  | Except.error e => ⟨t ++ [MainEvent.close], Exit.panic e.msg⟩
  | Except.ok ether =>
  let t := t ++ [MainEvent.print "ETH transfer amount: %s\n" [ether],
    MainEvent.call Step.SuggestGasPrice]
  match w.SuggestGasPrice with
  | Except.error err => ⟨t, Exit.fatal "Failed to suggest gas price: %v" [err]⟩
  | Except.ok gasPrice =>
  let t := t ++ [MainEvent.print "gasPrice: %d\n" [toString gasPrice],
    MainEvent.call Step.NetworkID]
  match w.NetworkID with
  | Except.error err => ⟨t, Exit.fatal "Failed to get network ID: %v" [err]⟩
  | Except.ok chainID =>
  let t := t ++ [MainEvent.print "chainID: %s\n" [toString chainID], MainEvent.call Step.SignTx]
  match w.SignTx with
  | Except.error err => ⟨t, Exit.fatal "Failed to sign transaction: %v" [err]⟩
  | Except.ok signedTx =>
  let t := t ++ [MainEvent.call Step.SendTransaction]
  match w.SendTransaction with
  | some err => ⟨t, Exit.fatal "Failed to send transaction: %v" [err]⟩
  | none =>
  let t := t ++ [MainEvent.print "Transaction sent! Tx Hash: %s\n" [signedTx],
    MainEvent.call Step.WaitMined]
  match bindWaitMined Background w.client signedTx fuel with
  | Progress.running _ events => ⟨t ++ events.map MainEvent.wait, Exit.polling⟩
  | Progress.returned receipt err events =>
  let t := t ++ events.map MainEvent.wait
  match err with
  | some err => ⟨t, Exit.fatal "Failed to wait for transaction to be mined: %v" [err]⟩
  | none =>
  match receipt with
  | none =>
    ⟨t ++ [MainEvent.close], Exit.panic "invalid memory address or nil pointer dereference"⟩
  | some receipt =>
  let t := t ++ [MainEvent.call Step.StatusCheck]
  if receipt.Status = ReceiptStatusFailed then
    ⟨t, Exit.fatal "Transaction failed" []⟩
  else
    ⟨t ++ [MainEvent.print "Transaction mined! Block Number: %v\n" [toString receipt.BlockNumber],
      MainEvent.close], Exit.done⟩

/-- The steps a run started, in order. -/
def calls (t : List MainEvent) : List Step :=
  t.filterMap (fun e => match e with | MainEvent.call s => some s | _ => none)

/-- The formats of the lines a run printed, in order. -/
def printed (t : List MainEvent) : List String :=
  t.filterMap (fun e => match e with | MainEvent.print f _ => some f | _ => none)

/-- The hash of the transaction that `main` signs, when signing succeeds. -/
def signedTxHash (w : World) : String :=
  match w.SignTx with
  | Except.ok h => h
  | Except.error _ => ""

/-- The step `s` fails in the world `w`: its result is an error; for the wait, that
`bindWaitMined` returns an error, and for the status check, that the receipt it returns has
the status `ReceiptStatusFailed`. -/
def stepFails (w : World) (fuel : Nat) : Step → Prop
  | Step.Dial => ∃ e, w.Dial = Except.error e
  | Step.HexToECDSA => ∃ e, w.HexToECDSA = Except.error e
  | Step.PublicKeyCast => w.PublicKeyIsECDSA = false
  | Step.PendingNonceAt => ∃ e, w.PendingNonceAt = Except.error e
  | Step.SuggestGasPrice => ∃ e, w.SuggestGasPrice = Except.error e
  | Step.NetworkID => ∃ e, w.NetworkID = Except.error e
  | Step.SignTx => ∃ e, w.SignTx = Except.error e
  | Step.SendTransaction => ∃ e, w.SendTransaction = some e
  | Step.WaitMined => ∃ r e t,
      bindWaitMined Background w.client (signedTxHash w) fuel = Progress.returned r (some e) t
  | Step.StatusCheck => ∃ rc t,
      bindWaitMined Background w.client (signedTxHash w) fuel
        = Progress.returned (some rc) none t ∧ rc.Status = ReceiptStatusFailed

/-- The message `main` logs when the step fails. -/
def fatalFormat : Step → String
  | Step.Dial => "Failed to connect to the Ethereum client: %v"
  | Step.HexToECDSA => "Invalid private key: %v"
  | Step.PublicKeyCast => "Failed to cast public key to ECDSA"
  | Step.PendingNonceAt => "Failed to get nonce: %v"
  | Step.SuggestGasPrice => "Failed to suggest gas price: %v"
  | Step.NetworkID => "Failed to get network ID: %v"
  | Step.SignTx => "Failed to sign transaction: %v"
  | Step.SendTransaction => "Failed to send transaction: %v"
  | Step.WaitMined => "Failed to wait for transaction to be mined: %v"
  | Step.StatusCheck => "Transaction failed"

/-- The position of a step in the program. -/
def stepIndex : Step → Nat
  | Step.Dial => 0
  | Step.HexToECDSA => 1
  | Step.PublicKeyCast => 2
  | Step.PendingNonceAt => 3
  | Step.SuggestGasPrice => 4
  | Step.NetworkID => 5
  | Step.SignTx => 6
  | Step.SendTransaction => 7
  | Step.WaitMined => 8
  | Step.StatusCheck => 9

/-- The steps of the program up to and including `s`. -/
def stepsUpTo (s : Step) : List Step := stepOrder.take (stepIndex s + 1)

/-- The events of a state of the loop. -/
def Progress.events : Progress → List Event
  | Progress.running _ t => t
  | Progress.returned _ _ t => t

/-- A world in which every step succeeds and the receipt arrives at the third lookup. -/
def demoWorld : World :=
  { Dial := Except.ok ()
    HexToECDSA := Except.ok ()
    PublicKeyIsECDSA := true
    fromAddress := "0xfrom"
    toAddress := "0xto"
    PendingNonceAt := Except.ok 7
    SuggestGasPrice := Except.ok 1000
    NetworkID := Except.ok 11155111
    SignTx := Except.ok "0xhash"
    SendTransaction := none
    client := ⟨fun _ n => if n < 2 then Except.error "not found" else Except.ok ⟨1, 42⟩⟩ }

/-- A context that is cancelled from the start. -/
def cancelledContext : Context := ⟨fun _ => true, fun _ => some "context canceled"⟩

/-- A context whose deadline passes before the `select` of iteration 2. -/
def deadlineContext : Context :=
  ⟨fun n => decide (2 ≤ n), fun n => if 2 ≤ n then some "context deadline exceeded" else none⟩

/-- A client whose lookups never succeed. -/
def pendingClient : Client := ⟨fun _ _ => Except.error "not found"⟩

/-- A world in which the network-id query fails. -/
def failingWorld : World := { demoWorld with NetworkID := Except.error "timeout" }

/-- A world in which every step succeeds but no receipt ever arrives. -/
def pendingWorld : World := { demoWorld with client := pendingClient }

/-! ## Reading a decimal string, and the exact expansion -/

/-- The value of a decimal digit character. -/
def digitVal (c : Char) : Nat := c.toNat - 48

/-- The natural number written by a list of decimal digits. -/
def readNat (cs : List Char) : Nat := cs.foldl (fun a c => 10 * a + digitVal c) 0

/-- The rational number written by an unsigned decimal string `ddd.ddd`. -/
def readDecimal (s : String) : ℚ :=
  let ip := s.data.takeWhile (fun c => c != '.')
  let fp := (s.data.dropWhile (fun c => c != '.')).drop 1
  (readNat ip : ℚ) + (readNat fp : ℚ) / 10 ^ fp.length

/-- The shape the specification gives the result: an optional minus sign, one or more
decimal digits, a point, and exactly 18 decimal digits. -/
def FixedPoint18 (s : String) : Prop :=
  ∃ sign ip fp : List Char, s = String.mk (sign ++ ip ++ '.' :: fp) ∧
    (sign = [] ∨ sign = ['-']) ∧ ip ≠ [] ∧ (∀ c ∈ ip, c.isDigit = true) ∧
    fp.length = 18 ∧ (∀ c ∈ fp, c.isDigit = true)

/-- A digit string padded on the left with zeros to `k` places. -/
def zeroPad (k : Nat) (ds : List Char) : List Char := List.replicate (k - ds.length) '0' ++ ds

/-- The exact decimal expansion of `w / 10 ^ 18` as the specification words it: the integer
part `w div 10 ^ 18`, a point, and `w mod 10 ^ 18` written with leading zeros on 18 places. -/
def etherString (w : Nat) : String :=
  String.mk (Nat.toDigits 10 (w / 10 ^ 18) ++ '.' :: zeroPad 18 (Nat.toDigits 10 (w % 10 ^ 18)))

/-! ## Lemmas on the `math/big` model -/

theorem bitLenAux_le_iff : ∀ (fuel n k : Nat), n ≤ fuel → (bitLenAux fuel n ≤ k ↔ n < 2 ^ k) := by
  intro fuel
  induction fuel with
  | zero =>
    intro n k h
    have hn : n = 0 := by omega
    subst hn
    simp [bitLenAux]
  | succ fuel ih =>
    intro n k h
    unfold bitLenAux
    by_cases hn : n = 0
    · subst hn
      simp
    · rw [if_neg hn]
      cases k with
      | zero =>
        simp
        omega
      | succ k =>
        have h2 : n / 2 ≤ fuel := by omega
        have := ih (n / 2) k h2
        rw [Nat.add_le_add_iff_right, this, pow_succ]
        omega

theorem bitLen_le_iff (n k : Nat) : bitLen n ≤ k ↔ n < 2 ^ k :=
  bitLenAux_le_iff n n k (le_refl n)

theorem lt_two_pow_bitLen (n : Nat) : n < 2 ^ bitLen n :=
  (bitLen_le_iff n (bitLen n)).1 (le_refl _)

theorem roundHalfEven_eq_of_le (num den r d : Nat) (h1 : num = r * den + d) (h2 : 2 * d < den) :
    roundHalfEven num den = r := by
  have hden : 0 < den := by omega
  have hd : d < den := by omega
  have hq : num / den = r := by
    rw [h1, Nat.mul_comm r den, Nat.mul_add_div hden, Nat.div_eq_of_lt hd, Nat.add_zero]
  have hr : num % den = d := by
    rw [h1, Nat.mul_comm r den, Nat.mul_add_mod, Nat.mod_eq_of_lt hd]
  unfold roundHalfEven
  simp only [hq, hr]
  rw [if_neg]
  omega

theorem roundHalfEven_eq_of_ge (num den r d : Nat) (h1 : num + d = r * den) (h0 : 0 < d)
    (h2 : 2 * d < den) : roundHalfEven num den = r := by
  have hden : 0 < den := by omega
  have hd : d < den := by omega
  obtain ⟨r', rfl⟩ : ∃ r', r = r' + 1 := by
    cases r with
    | zero => simp at h1; omega
    | succ r' => exact ⟨r', rfl⟩
  have h3 : num = r' * den + (den - d) := by
    have : (r' + 1) * den = r' * den + den := by ring
    omega
  have hq : num / den = r' := by
    rw [h3, Nat.mul_comm r' den, Nat.mul_add_div hden, Nat.div_eq_of_lt (by omega), Nat.add_zero]
  have hr : num % den = den - d := by
    rw [h3, Nat.mul_comm r' den, Nat.mul_add_mod, Nat.mod_eq_of_lt (by omega)]
  unfold roundHalfEven
  simp only [hq, hr]
  rw [if_pos]
  left
  omega

theorem roundHalfEven_near (num den : Nat) (hden : 0 < den) :
    2 * (roundHalfEven num den * den) ≤ 2 * num + den ∧
      2 * num ≤ 2 * (roundHalfEven num den * den) + den := by
  have hdm := Nat.div_add_mod num den
  have hlt := Nat.mod_lt num hden
  have hmul : den * (num / den) = num / den * den := Nat.mul_comm _ _
  unfold roundHalfEven
  simp only
  split_ifs with h
  · have : (num / den + 1) * den = num / den * den + den := by ring
    rcases h with h | h <;> constructor <;> omega
  · constructor <;> omega

theorem bitLen_five_pow : bitLen (5 ^ 18) = 42 := by decide

theorem bitLen_eq (n k : Nat) (h1 : 2 ^ k ≤ n) (h2 : n < 2 ^ (k + 1)) : bitLen n = k + 1 := by
  apply le_antisymm ((bitLen_le_iff n (k + 1)).2 h2)
  by_contra h
  have h3 : bitLen n ≤ k := by omega
  have := (bitLen_le_iff n k).1 h3
  omega

theorem bitLen_two_pow (n : Nat) : bitLen (2 ^ n) = n + 1 :=
  bitLen_eq (2 ^ n) n (le_refl _) (Nat.pow_lt_pow_right (by norm_num) (Nat.lt_succ_self n))

theorem bitLen_pos (n : Nat) (hn : 0 < n) : 0 < bitLen n := by
  by_contra h
  have h0 : bitLen n ≤ 0 := by omega
  have := (bitLen_le_iff n 0).1 h0
  simp at this
  omega

theorem two_pow_le_of_bitLen (n : Nat) (hn : 0 < n) : 2 ^ (bitLen n - 1) ≤ n := by
  by_contra h
  have h1 : n < 2 ^ (bitLen n - 1) := by omega
  have h2 := (bitLen_le_iff n (bitLen n - 1)).2 h1
  have h3 := bitLen_pos n hn
  omega

/-- A magnitude shifted up to `p` bits has exactly `p` bits. -/
theorem bitLen_shift (w p : Nat) (hw : 0 < w) (hp : bitLen w ≤ p) :
    bitLen (w * 2 ^ (p - bitLen w)) = p := by
  have hpos := bitLen_pos w hw
  have hlo := two_pow_le_of_bitLen w hw
  have hhi := lt_two_pow_bitLen w
  obtain ⟨q, hq⟩ : ∃ q, p = q + 1 := ⟨p - 1, by omega⟩
  rw [hq] at hp ⊢
  apply bitLen_eq
  · calc 2 ^ q = 2 ^ (bitLen w - 1 + (q + 1 - bitLen w)) := by congr 1; omega
      _ = 2 ^ (bitLen w - 1) * 2 ^ (q + 1 - bitLen w) := pow_add _ _ _
      _ ≤ w * 2 ^ (q + 1 - bitLen w) := Nat.mul_le_mul_right _ hlo
  · calc w * 2 ^ (q + 1 - bitLen w) < 2 ^ bitLen w * 2 ^ (q + 1 - bitLen w) :=
          Nat.mul_lt_mul_of_pos_right hhi (by positivity)
      _ = 2 ^ (bitLen w + (q + 1 - bitLen w)) := (pow_add _ _ _).symm
      _ = 2 ^ (q + 1) := by congr 1; omega

theorem roundHalfEven_one (n : Nat) : roundHalfEven n 1 = n := by
  simp [roundHalfEven, Nat.mod_one]

/-- As long as its bit length is at most `MaxExp`, a non-zero integer is taken over exactly:
a mantissa of `prec` bits with the matching exponent. -/
theorem SetInt_finite (w : Int) (hw : w ≠ 0) (hb : (bitLen w.natAbs : Int) ≤ MaxExp) :
    SetInt w = ⟨max (bitLen w.natAbs) 64, Form.finite, decide (w < 0),
      w.natAbs * 2 ^ (max (bitLen w.natAbs) 64 - bitLen w.natAbs),
      (bitLen w.natAbs : Int) - ((max (bitLen w.natAbs) 64 : Nat) : Int)⟩ := by
  have hpos : 0 < w.natAbs := Int.natAbs_pos.2 hw
  simp only [MaxExp] at hb
  have hmod : bitLen w.natAbs % 2 ^ 32 = bitLen w.natAbs := Nat.mod_eq_of_lt (by omega)
  have hle : bitLen w.natAbs ≤ max (bitLen w.natAbs) 64 := le_max_left _ _
  have hk : (0 : Int) ≤ ((max (bitLen w.natAbs) 64 : Nat) : Int) - (bitLen w.natAbs : Int) := by
    omega
  have hto : (((max (bitLen w.natAbs) 64 : Nat) : Int) - (bitLen w.natAbs : Int)).toNat
      = max (bitLen w.natAbs) 64 - bitLen w.natAbs := by omega
  have hlt : w.natAbs * 2 ^ (max (bitLen w.natAbs) 64 - bitLen w.natAbs)
      < 2 ^ max (bitLen w.natAbs) 64 := by
    have := bitLen_shift w.natAbs _ hpos hle
    exact (bitLen_le_iff _ _).1 (le_of_eq this)
  have h1 : ¬ ((bitLen w.natAbs : Int) < MinExp) := by simp only [MinExp]; omega
  have h2 : ¬ (MaxExp < (bitLen w.natAbs : Int)) := by simp only [MaxExp]; omega
  simp only [SetInt, hmod, hw, if_false, scaled, hk, if_true, hto, setExpAndRound, h1, h2,
    roundHalfEven_one, Nat.mul_one]
  rw [if_neg]
  intro hcarry
  omega

/-- The quotient that `weiToEther` forms, for a non-zero amount whose bit length is at most
`MaxExp`: finite, the mantissa of the amount scaled by `2 ^ 41` or `2 ^ 42` and divided by
`5 ^ 18`, rounded to the precision. -/
theorem Quo_wei (w : Int) (hw : w ≠ 0) (hb : (bitLen w.natAbs : Int) ≤ MaxExp) :
    ∃ K : Nat,
      ((K = 42 ∧ ¬ 2 ^ max (bitLen w.natAbs) 64
          ≤ w.natAbs * 2 ^ (max (bitLen w.natAbs) 64 - bitLen w.natAbs) * 2 ^ 42 / 5 ^ 18) ∨
        (K = 41 ∧ 2 ^ max (bitLen w.natAbs) 64
          ≤ w.natAbs * 2 ^ (max (bitLen w.natAbs) 64 - bitLen w.natAbs) * 2 ^ 42 / 5 ^ 18)) ∧
      Quo (SetInt w) (NewFloat lit1e18) = Except.ok
        ⟨max (bitLen w.natAbs) 64, Form.finite, decide (w < 0),
          roundHalfEven
            (w.natAbs * 2 ^ (max (bitLen w.natAbs) 64 - bitLen w.natAbs) * 2 ^ K) (5 ^ 18),
          (bitLen w.natAbs : Int) - 18 - (K : Int)
            - ((max (bitLen w.natAbs) 64 : Nat) : Int)⟩ := by
  have hpos : 0 < w.natAbs := Int.natAbs_pos.2 hw
  have hle : bitLen w.natAbs ≤ max (bitLen w.natAbs) 64 := le_max_left _ _
  have hX := bitLen_shift w.natAbs _ hpos hle
  have h53 : max (max (bitLen w.natAbs) 64) 53 = max (bitLen w.natAbs) 64 :=
    max_eq_left (le_max_of_le_right (by norm_num))
  have hk0 : ((max (bitLen w.natAbs) 64 : Nat) : Int) + ((bitLen (5 ^ 18) : Nat) : Int)
      - ((bitLen (w.natAbs * 2 ^ (max (bitLen w.natAbs) 64 - bitLen w.natAbs)) : Nat) : Int)
      = ((42 : Nat) : Int) := by
    rw [hX, bitLen_five_pow]
    omega
  have hk1 : ((42 : Nat) : Int) - 1 = ((41 : Nat) : Int) := by norm_num
  simp only [MaxExp] at hb
  rw [SetInt_finite w hw (by simpa only [MaxExp] using hb)]
  simp only [Quo, NewFloat, lit1e18, show ((5 : Nat) ^ 18 = 0) = False from by norm_num, if_false,
    and_self, if_true, Bool.bne_false, h53, uquo, quoShift, hk0, scaled, Int.natCast_nonneg,
    Int.toNat_ofNat]
  by_cases hc : 2 ^ max (bitLen w.natAbs) 64
      ≤ w.natAbs * 2 ^ (max (bitLen w.natAbs) 64 - bitLen w.natAbs) * 2 ^ 42 / 5 ^ 18
  · refine ⟨41, Or.inr ⟨rfl, hc⟩, ?_⟩
    have e1 : ¬ (((max (bitLen w.natAbs) 64 : Nat) : Int)
        + ((bitLen w.natAbs : Int) - ((max (bitLen w.natAbs) 64 : Nat) : Int)) - 18
        - ((41 : Nat) : Int) < MinExp) := by simp only [MinExp]; omega
    have e2 : ¬ (MaxExp < ((max (bitLen w.natAbs) 64 : Nat) : Int)
        + ((bitLen w.natAbs : Int) - ((max (bitLen w.natAbs) 64 : Nat) : Int)) - 18
        - ((41 : Nat) : Int)) := by simp only [MaxExp]; omega
    have e3 : ¬ (MaxExp ≤ ((max (bitLen w.natAbs) 64 : Nat) : Int)
        + ((bitLen w.natAbs : Int) - ((max (bitLen w.natAbs) 64 : Nat) : Int)) - 18
        - ((41 : Nat) : Int)) := by simp only [MaxExp]; omega
    simp only [hc, if_true, hk1, Int.natCast_nonneg, Int.toNat_ofNat, setExpAndRound, e1, e2, e3,
      if_false, and_false]
    congr 2
    omega
  · refine ⟨42, Or.inl ⟨rfl, hc⟩, ?_⟩
    have e1 : ¬ (((max (bitLen w.natAbs) 64 : Nat) : Int)
        + ((bitLen w.natAbs : Int) - ((max (bitLen w.natAbs) 64 : Nat) : Int)) - 18
        - ((42 : Nat) : Int) < MinExp) := by simp only [MinExp]; omega
    have e2 : ¬ (MaxExp < ((max (bitLen w.natAbs) 64 : Nat) : Int)
        + ((bitLen w.natAbs : Int) - ((max (bitLen w.natAbs) 64 : Nat) : Int)) - 18
        - ((42 : Nat) : Int)) := by simp only [MaxExp]; omega
    have e3 : ¬ (MaxExp ≤ ((max (bitLen w.natAbs) 64 : Nat) : Int)
        + ((bitLen w.natAbs : Int) - ((max (bitLen w.natAbs) 64 : Nat) : Int)) - 18
        - ((42 : Nat) : Int)) := by simp only [MaxExp]; omega
    simp only [hc, if_false, Int.natCast_nonneg, if_true, Int.toNat_ofNat, setExpAndRound, e1, e2,
      e3, and_false]
    congr 2
    omega

/-- The arithmetic heart of `weiToEther`: when the amount is scaled by at least `2 ^ 42`
before the division by `5 ^ 18` is rounded, rounding the result again in units of
`10 ^ (-18)` gives the amount back. -/
theorem roundHalfEven_round_trip (w K : Nat) (hK : 42 ≤ K) :
    roundHalfEven (roundHalfEven (w * 2 ^ K) (5 ^ 18) * 10 ^ 18) (2 ^ (18 + K)) = w := by
  have h5 : (0 : Nat) < 5 ^ 18 := by norm_num
  obtain ⟨hup, hdown⟩ := roundHalfEven_near (w * 2 ^ K) (5 ^ 18) h5
  set m := roundHalfEven (w * 2 ^ K) (5 ^ 18) with hm
  have hpow : (2 : Nat) ^ 42 ≤ 2 ^ K := Nat.pow_le_pow_right (by norm_num) hK
  have h10 : (10 : Nat) ^ 18 = 5 ^ 18 * 2 ^ 18 := by norm_num
  have hden : (2 : Nat) ^ (18 + K) = 2 ^ 18 * 2 ^ K := pow_add 2 18 K
  have h542 : (5 : Nat) ^ 18 < 2 ^ 42 := by norm_num
  rw [hden, h10]
  rcases Nat.le_total (w * 2 ^ K) (m * 5 ^ 18) with hle | hle
  · obtain ⟨d, hd⟩ := Nat.exists_eq_add_of_le hle
    apply roundHalfEven_eq_of_le _ _ w (d * 2 ^ 18)
    · calc m * (5 ^ 18 * 2 ^ 18) = (m * 5 ^ 18) * 2 ^ 18 := by ring
        _ = (w * 2 ^ K + d) * 2 ^ 18 := by rw [hd]
        _ = w * (2 ^ 18 * 2 ^ K) + d * 2 ^ 18 := by ring
    · have hd2 : 2 * d ≤ 5 ^ 18 := by omega
      have hd3 : 2 * d < 2 ^ K := by omega
      calc 2 * (d * 2 ^ 18) = (2 * d) * 2 ^ 18 := by ring
        _ < 2 ^ K * 2 ^ 18 := Nat.mul_lt_mul_of_pos_right hd3 (by norm_num)
        _ = 2 ^ 18 * 2 ^ K := by ring
  · rcases Nat.eq_or_lt_of_le hle with heq | hlt
    · apply roundHalfEven_eq_of_le _ _ w 0
      · calc m * (5 ^ 18 * 2 ^ 18) = (m * 5 ^ 18) * 2 ^ 18 := by ring
          _ = (w * 2 ^ K) * 2 ^ 18 := by rw [heq]
          _ = w * (2 ^ 18 * 2 ^ K) + 0 := by ring
      · positivity
    · obtain ⟨d, hd⟩ := Nat.exists_eq_add_of_le hle
      have hd0 : 0 < d := by omega
      apply roundHalfEven_eq_of_ge _ _ w (d * 2 ^ 18)
      · calc m * (5 ^ 18 * 2 ^ 18) + d * 2 ^ 18 = (m * 5 ^ 18 + d) * 2 ^ 18 := by ring
          _ = (w * 2 ^ K) * 2 ^ 18 := by rw [hd]
          _ = w * (2 ^ 18 * 2 ^ K) := by ring
      · positivity
      · have hd2 : 2 * d ≤ 5 ^ 18 := by omega
        have hd3 : 2 * d < 2 ^ K := by omega
        calc 2 * (d * 2 ^ 18) = (2 * d) * 2 ^ 18 := by ring
          _ < 2 ^ K * 2 ^ 18 := Nat.mul_lt_mul_of_pos_right hd3 (by norm_num)
          _ = 2 ^ 18 * 2 ^ K := by ring

/-- Below `16 * 10 ^ 18` Wei, `weiToEther` prints the Wei amount itself with the point
18 digits from the right. -/
theorem weiToEther_of_lt (w : Nat) (hw : w < 16 * 10 ^ 18) :
    weiToEther (w : Int) = Except.ok (String.mk (fmtF 18 w)) := by
  rcases Nat.eq_zero_or_pos w with h0 | h0
  · subst h0
    rfl
  · have hne : (w : Int) ≠ 0 := by omega
    have hnl : ¬ ((w : Int) < 0) := by omega
    have hb64 : bitLen w ≤ 64 := (bitLen_le_iff w 64).2 (by norm_num at hw ⊢; omega)
    have hp : max (bitLen w) 64 = 64 := max_eq_right hb64
    obtain ⟨K, hK, hquo⟩ := Quo_wei (w : Int) hne (by
      rw [Int.natAbs_ofNat]; simp only [MaxExp]; omega)
    rw [Int.natAbs_ofNat, hp] at hquo hK
    have hK42 : 42 ≤ K + (64 - bitLen w) := by
      rcases hK with ⟨rfl, _⟩ | ⟨rfl, hc⟩
      · omega
      · by_contra hlt
        have hb : bitLen w = 64 := by omega
        rw [hb] at hc
        have h1 : w * 2 ^ (64 - 64) * 2 ^ 42 / 5 ^ 18 < 2 ^ 64 := by
          apply Nat.div_lt_of_lt_mul
          norm_num at hw ⊢
          omega
        omega
    have hexp : ((bitLen w : Int) - 18 - (K : Int) - ((64 : Nat) : Int))
        = -((18 + (K + (64 - bitLen w)) : Nat) : Int) := by omega
    have hneg : ¬ (0 : Int) ≤ -((18 + (K + (64 - bitLen w)) : Nat) : Int) := by omega
    have hmul : w * 2 ^ (64 - bitLen w) * 2 ^ K = w * 2 ^ (K + (64 - bitLen w)) := by
      rw [Nat.mul_assoc, ← pow_add, Nat.add_comm]
    simp only [weiToEther, hquo, Text, decide_eq_true_eq, hnl, if_false, List.nil_append,
      decimalRound, hexp, hneg, neg_neg, Int.toNat_ofNat, hmul]
    rw [roundHalfEven_round_trip w _ hK42]

/-! ## Lemmas on decimal digits -/

theorem digitChar_isDigit (d : Nat) (h : d < 10) : (Nat.digitChar d).isDigit = true := by
  interval_cases d <;> rfl

theorem digitVal_digitChar (d : Nat) (h : d < 10) : digitVal (Nat.digitChar d) = d := by
  interval_cases d <;> rfl

theorem digitChar_ne_point (d : Nat) (h : d < 10) : (Nat.digitChar d != '.') = true := by
  interval_cases d <;> rfl

theorem toDigitsCore_acc : ∀ (fuel n : Nat) (acc : List Char),
    Nat.toDigitsCore 10 fuel n acc = Nat.toDigitsCore 10 fuel n [] ++ acc := by
  intro fuel
  induction fuel with
  | zero => intro n acc; simp [Nat.toDigitsCore]
  | succ fuel ih =>
    intro n acc
    simp only [Nat.toDigitsCore]
    split_ifs with h
    · simp
    · rw [ih (n / 10) (Nat.digitChar (n % 10) :: acc), ih (n / 10) [Nat.digitChar (n % 10)]]
      simp

theorem toDigitsCore_fuel : ∀ (fuel fuel2 n : Nat), n < fuel → n < fuel2 →
    Nat.toDigitsCore 10 fuel n [] = Nat.toDigitsCore 10 fuel2 n [] := by
  intro fuel
  induction fuel with
  | zero => intro fuel2 n h; omega
  | succ fuel ih =>
    intro fuel2 n h h2
    obtain ⟨f2, rfl⟩ : ∃ f2, fuel2 = f2 + 1 := ⟨fuel2 - 1, by omega⟩
    simp only [Nat.toDigitsCore]
    split_ifs with h0
    · rfl
    · rw [toDigitsCore_acc fuel, toDigitsCore_acc f2, ih f2 (n / 10) (by omega) (by omega)]

theorem toDigits_lt (n : Nat) (h : n < 10) : Nat.toDigits 10 n = [Nat.digitChar n] := by
  have h0 : n / 10 = 0 := by omega
  have h1 : n % 10 = n := by omega
  simp [Nat.toDigits, Nat.toDigitsCore, h0, h1]

theorem toDigits_ge (n : Nat) (h : 10 ≤ n) :
    Nat.toDigits 10 n = Nat.toDigits 10 (n / 10) ++ [Nat.digitChar (n % 10)] := by
  have h0 : n / 10 ≠ 0 := by omega
  have h1 : Nat.toDigits 10 n = Nat.toDigitsCore 10 n (n / 10) [Nat.digitChar (n % 10)] := by
    simp only [Nat.toDigits, Nat.toDigitsCore, h0, if_false]
  rw [h1, toDigitsCore_acc, toDigitsCore_fuel n (n / 10 + 1) (n / 10) (by omega) (by omega)]
  rfl

/-- An induction principle along the decimal digits of a number. -/
theorem decimal_induction (P : Nat → Prop) (small : ∀ n, n < 10 → P n)
    (step : ∀ n, 10 ≤ n → P (n / 10) → P n) : ∀ n, P n := by
  intro n
  induction n using Nat.strong_induction_on with
  | _ n ih =>
    rcases Nat.lt_or_ge n 10 with h | h
    · exact small n h
    · exact step n h (ih (n / 10) (by omega))

theorem toDigits_isDigit (n : Nat) : ∀ c ∈ Nat.toDigits 10 n, c.isDigit = true := by
  induction n using decimal_induction with
  | small n h =>
    intro c hc
    rw [toDigits_lt n h, List.mem_singleton] at hc
    rw [hc]
    exact digitChar_isDigit n h
  | step n h ih =>
    intro c hc
    rw [toDigits_ge n h, List.mem_append, List.mem_singleton] at hc
    rcases hc with hc | hc
    · exact ih c hc
    · rw [hc]
      exact digitChar_isDigit _ (Nat.mod_lt _ (by norm_num))

theorem toDigits_ne_nil (n : Nat) : Nat.toDigits 10 n ≠ [] := by
  rcases Nat.lt_or_ge n 10 with h | h
  · rw [toDigits_lt n h]; simp
  · rw [toDigits_ge n h]; simp

theorem fracDigits_length (k r : Nat) : (fracDigits k r).length = k := by
  simp [fracDigits]

theorem fracDigits_isDigit (k r : Nat) : ∀ c ∈ fracDigits k r, c.isDigit = true := by
  intro c hc
  simp only [fracDigits, List.mem_map] at hc
  obtain ⟨i, _, rfl⟩ := hc
  exact digitChar_isDigit _ (Nat.mod_lt _ (by norm_num))

theorem fracDigits_succ (k r : Nat) :
    fracDigits (k + 1) r = fracDigits k (r / 10) ++ [Nat.digitChar (r % 10)] := by
  simp only [fracDigits, List.range_succ, List.map_append, List.map_cons, List.map_nil]
  congr 1
  · apply List.map_congr_left
    intro i hi
    rw [List.mem_range] at hi
    have h1 : k + 1 - 1 - i = (k - 1 - i) + 1 := by omega
    rw [h1, pow_succ, Nat.mul_comm, Nat.div_div_eq_div_mul]
  · have h2 : k + 1 - 1 - k = 0 := by omega
    rw [h2, pow_zero, Nat.div_one]

theorem fracDigits_zero (k : Nat) : fracDigits k 0 = List.replicate k '0' := by
  induction k with
  | zero => rfl
  | succ k ih =>
    rw [fracDigits_succ, Nat.zero_div, ih, List.replicate_succ']
    rfl

theorem zeroPad_toDigits : ∀ (k r : Nat), r < 10 ^ (k + 1) →
    zeroPad (k + 1) (Nat.toDigits 10 r) = fracDigits (k + 1) r := by
  intro k
  induction k with
  | zero =>
    intro r hr
    have hr10 : r < 10 := by simpa using hr
    rw [toDigits_lt r hr10, fracDigits_succ]
    have : r % 10 = r := by omega
    simp [zeroPad, fracDigits, this]
  | succ k ih =>
    intro r hr
    rw [fracDigits_succ (k + 1) r]
    rcases Nat.lt_or_ge r 10 with h | h
    · have h0 : r / 10 = 0 := by omega
      have h1 : r % 10 = r := by omega
      rw [toDigits_lt r h, h0, h1, fracDigits_zero]
      simp [zeroPad]
    · have hlt : r / 10 < 10 ^ (k + 1) := by
        apply Nat.div_lt_of_lt_mul
        rw [pow_succ] at hr
        omega
      rw [toDigits_ge r h, ← ih (r / 10) hlt]
      simp [zeroPad]

theorem fracDigits_mod (k r : Nat) : fracDigits k (r % 10 ^ k) = fracDigits k r := by
  induction k generalizing r with
  | zero => rfl
  | succ k ih =>
    rw [fracDigits_succ, fracDigits_succ]
    have h1 : r % 10 ^ (k + 1) / 10 = r / 10 % 10 ^ k := by
      rw [pow_succ, Nat.mul_comm, Nat.mod_mul_right_div_self]
    have h2 : r % 10 ^ (k + 1) % 10 = r % 10 := by
      apply Nat.mod_mod_of_dvd
      exact Dvd.intro_left (10 ^ k) (pow_succ 10 k).symm
    rw [h1, h2, ih (r / 10)]

theorem readNat_snoc (cs : List Char) (c : Char) :
    readNat (cs ++ [c]) = 10 * readNat cs + digitVal c := by
  simp [readNat, List.foldl_append]

theorem readNat_toDigits (n : Nat) : readNat (Nat.toDigits 10 n) = n := by
  induction n using decimal_induction with
  | small n h =>
    rw [toDigits_lt n h]
    simp [readNat, digitVal_digitChar n h]
  | step n h ih =>
    rw [toDigits_ge n h, readNat_snoc, ih, digitVal_digitChar _ (Nat.mod_lt _ (by norm_num))]
    omega

theorem readNat_fracDigits (k r : Nat) : readNat (fracDigits k r) = r % 10 ^ k := by
  induction k generalizing r with
  | zero => simp [fracDigits, readNat, Nat.mod_one]
  | succ k ih =>
    rw [fracDigits_succ, readNat_snoc, ih, digitVal_digitChar _ (Nat.mod_lt _ (by norm_num)),
      pow_succ, Nat.mul_comm (10 ^ k) 10, Nat.mod_mul]
    omega

theorem isDigit_ne_point (c : Char) (h : c.isDigit = true) : (c != '.') = true := by
  by_contra hc
  have : c = '.' := by simpa using hc
  subst this
  exact absurd h (by decide)

theorem takeWhile_point (ds rest : List Char) (h : ∀ c ∈ ds, c.isDigit = true) :
    (ds ++ '.' :: rest).takeWhile (fun c => c != '.') = ds ∧
      (ds ++ '.' :: rest).dropWhile (fun c => c != '.') = '.' :: rest := by
  induction ds with
  | nil => simp [List.takeWhile, List.dropWhile]
  | cons d ds ih =>
    have hd : (d != '.') = true := isDigit_ne_point d (h d (List.mem_cons_self d ds))
    have := ih (fun c hc => h c (List.mem_cons_of_mem d hc))
    rw [List.cons_append, List.takeWhile_cons, List.dropWhile_cons, hd]
    exact ⟨by simp only [if_true, this.1], by simp only [if_true, this.2]⟩

/-- The printed number `fmtF 18 r`, read back, is `r / 10 ^ 18`. -/
theorem readDecimal_fmtF (r : Nat) : readDecimal (String.mk (fmtF 18 r)) = (r : ℚ) / 10 ^ 18 := by
  have hsplit := takeWhile_point (Nat.toDigits 10 (r / 10 ^ 18)) (fracDigits 18 r)
    (toDigits_isDigit _)
  have hf : fmtF 18 r = Nat.toDigits 10 (r / 10 ^ 18) ++ '.' :: fracDigits 18 r := by
    simp [fmtF]
  simp only [readDecimal, hf, hsplit.1, hsplit.2, List.drop_succ_cons, List.drop_zero,
    readNat_toDigits, readNat_fracDigits, fracDigits_length]
  have hdm := Nat.div_add_mod r (10 ^ 18)
  have hq : ((r : ℚ)) = (10 : ℚ) ^ 18 * ((r / 10 ^ 18 : Nat) : ℚ) + ((r % 10 ^ 18 : Nat) : ℚ) := by
    exact_mod_cast hdm.symm
  rw [eq_div_iff (by positivity), add_mul, div_mul_cancel₀ _ (by positivity)]
  linarith

/-- The string `weiToEther` builds from the rounded amount is the exact expansion of
that amount. -/
theorem fmtF_eq_etherString (w : Nat) : String.mk (fmtF 18 w) = etherString w := by
  have h := zeroPad_toDigits 17 (w % 10 ^ 18) (Nat.mod_lt _ (by norm_num))
  simp only [etherString, fmtF, h, fracDigits_mod]
  simp

/-- The general shape of the result, for an amount whose bit length is at most `MaxExp`:
a sign for a negative amount, then `fmtF` of some natural number. -/
theorem weiToEther_shape (w : Int) (hb : (bitLen w.natAbs : Int) ≤ MaxExp) :
    ∃ r : Nat, weiToEther w =
      Except.ok (String.mk ((if w < 0 then ['-'] else []) ++ fmtF 18 r)) := by
  rcases eq_or_ne w 0 with h0 | h0
  · subst h0
    exact ⟨0, rfl⟩
  · obtain ⟨K, _, hquo⟩ := Quo_wei w h0 hb
    refine ⟨decimalRound ⟨max (bitLen w.natAbs) 64, Form.finite, decide (w < 0),
      roundHalfEven
        (w.natAbs * 2 ^ (max (bitLen w.natAbs) 64 - bitLen w.natAbs) * 2 ^ K) (5 ^ 18),
      (bitLen w.natAbs : Int) - 18 - (K : Int) - ((max (bitLen w.natAbs) 64 : Nat) : Int)⟩ 18, ?_⟩
    simp only [weiToEther, hquo, Text, decide_eq_true_eq]

/-- At a bit length of `2 ^ 31`, one more than `MaxExp`, `SetInt` overflows to `+Inf`, and so
does the quotient. -/
theorem weiToEther_overflow (w : Int) (hw : 0 < w) (hb : bitLen w.natAbs = 2147483648) :
    weiToEther w = Except.ok "+Inf" := by
  have hne : w ≠ 0 := by omega
  have hnl : ¬ (w < 0) := by omega
  have hmod : (2147483648 : Nat) % 2 ^ 32 = 2147483648 := by norm_num
  have h1 : ¬ (((2147483648 : Nat) : Int) < MinExp) := by simp only [MinExp]; omega
  have h2 : MaxExp < ((2147483648 : Nat) : Int) := by simp only [MaxExp]; omega
  simp only [weiToEther, SetInt, hb, hmod, hne, if_false, setExpAndRound, h1, h2, if_true, Quo,
    NewFloat, lit1e18, show ((5 : Nat) ^ 18 = 0) = False from by norm_num, reduceCtorEq,
    false_and, and_false, or_false, false_or, Text, hnl, decide_False, Bool.bne_false,
    Bool.false_eq_true, List.nil_append]
  rfl

theorem weiToEther_overflow_two_pow (n : Nat) (hn : n + 1 = 2147483648) :
    weiToEther ((2 ^ n : Nat) : Int) = Except.ok "+Inf" := by
  apply weiToEther_overflow
  · exact Int.natCast_pos.2 (Nat.two_pow_pos n)
  · rw [Int.natAbs_ofNat, bitLen_two_pow, hn]

/-! ## Lemmas on the polling loop -/

theorem bindWaitMinedFrom_add (ctx : Context) (client : Client) (hash : String) :
    ∀ (a b n : Nat) (t : List Event),
      bindWaitMinedFrom ctx client hash (a + b) n t =
        match bindWaitMinedFrom ctx client hash a n t with
        | Progress.running n2 t2 => bindWaitMinedFrom ctx client hash b n2 t2
        | Progress.returned r e t2 => Progress.returned r e t2 := by
  intro a
  induction a with
  | zero => intro b n t; simp [bindWaitMinedFrom]
  | succ a ih =>
    intro b n t
    have h : a + 1 + b = (a + b) + 1 := by omega
    rw [h]
    simp only [bindWaitMinedFrom]
    cases hb : loopBody ctx client hash n t with
    | running n2 t2 => simp only [ih]
    | returned r e t2 => rfl

theorem loopBody_ok (ctx : Context) (client : Client) (hash : String) (n : Nat) (t : List Event)
    (receipt : Receipt) (h : client.TransactionReceipt hash n = Except.ok receipt) :
    loopBody ctx client hash n t
      = Progress.returned (some receipt) none (t ++ [Event.lookup hash n]) := by
  simp [loopBody, h]

theorem loopBody_cancelled (ctx : Context) (client : Client) (hash : String) (n : Nat)
    (t : List Event) (e : GoError) (h : client.TransactionReceipt hash n = Except.error e)
    (hd : ctx.Done n = true) :
    loopBody ctx client hash n t
      = Progress.returned none (ctx.Err n)
          (t ++ [Event.lookup hash n, Event.println "Waiting for transaction to be mined...",
            Event.select n]) := by
  simp [loopBody, h, hd]

theorem loopBody_retry (ctx : Context) (client : Client) (hash : String) (n : Nat)
    (t : List Event) (e : GoError) (h : client.TransactionReceipt hash n = Except.error e)
    (hd : ctx.Done n = false) :
    loopBody ctx client hash n t
      = Progress.running (n + 1)
          (t ++ [Event.lookup hash n, Event.println "Waiting for transaction to be mined...",
            Event.select n, Event.sleep Second]) := by
  simp [loopBody, h, hd]

/-- After `n` failed lookups without cancellation the loop is still running, about to make
lookup `n`, and has produced exactly the events of `n` failed rounds. -/
theorem bindWaitMined_running (ctx : Context) (client : Client) (hash : String) :
    ∀ n : Nat, (∀ i, i < n → ∃ e, client.TransactionReceipt hash i = Except.error e) →
      (∀ i, i < n → ctx.Done i = false) →
      bindWaitMined ctx client hash n = Progress.running n (failedRounds hash n) := by
  intro n
  induction n with
  | zero => intro _ _; rfl
  | succ n ih =>
    intro hfail hlive
    have h1 := ih (fun i hi => hfail i (by omega)) (fun i hi => hlive i (by omega))
    obtain ⟨e, he⟩ := hfail n (by omega)
    unfold bindWaitMined at h1 ⊢
    rw [bindWaitMinedFrom_add, h1]
    simp only [bindWaitMinedFrom, loopBody_retry ctx client hash n _ e he (hlive n (by omega)),
      failedRounds]

theorem bindWaitMined_ok (ctx : Context) (client : Client) (hash : String) (k : Nat)
    (receipt : Receipt)
    (hfail : ∀ i, i < k → ∃ e, client.TransactionReceipt hash i = Except.error e)
    (hlive : ∀ i, i < k → ctx.Done i = false)
    (hok : client.TransactionReceipt hash k = Except.ok receipt) (fuel : Nat) (hfuel : k < fuel) :
    bindWaitMined ctx client hash fuel
      = Progress.returned (some receipt) none (failedRounds hash k ++ [Event.lookup hash k]) := by
  obtain ⟨f, rfl⟩ : ∃ f, fuel = k + (f + 1) := ⟨fuel - k - 1, by omega⟩
  have h1 := bindWaitMined_running ctx client hash k hfail hlive
  unfold bindWaitMined at h1 ⊢
  rw [bindWaitMinedFrom_add, h1]
  simp only [bindWaitMinedFrom, loopBody_ok ctx client hash k _ receipt hok]

theorem bindWaitMined_cancelled (ctx : Context) (client : Client) (hash : String) (k : Nat)
    (hfail : ∀ i, i ≤ k → ∃ e, client.TransactionReceipt hash i = Except.error e)
    (hlive : ∀ i, i < k → ctx.Done i = false)
    (hdone : ctx.Done k = true) (fuel : Nat) (hfuel : k < fuel) :
    bindWaitMined ctx client hash fuel
      = Progress.returned none (ctx.Err k)
          (failedRounds hash k ++
            [Event.lookup hash k, Event.println "Waiting for transaction to be mined...",
              Event.select k]) := by
  obtain ⟨f, rfl⟩ : ∃ f, fuel = k + (f + 1) := ⟨fuel - k - 1, by omega⟩
  have h1 := bindWaitMined_running ctx client hash k (fun i hi => hfail i (by omega)) hlive
  obtain ⟨e, he⟩ := hfail k (le_refl k)
  unfold bindWaitMined at h1 ⊢
  rw [bindWaitMinedFrom_add, h1]
  simp only [bindWaitMinedFrom, loopBody_cancelled ctx client hash k _ e he hdone]

theorem lookups_failedRounds (hash : String) (n : Nat) :
    lookups (failedRounds hash n) = List.range n := by
  induction n with
  | zero => rfl
  | succ n ih =>
    simp only [failedRounds, lookups, List.filterMap_append] at ih ⊢
    rw [ih, List.range_succ]
    rfl

theorem sleeps_failedRounds (hash : String) (n : Nat) :
    sleeps (failedRounds hash n) = List.replicate n Second := by
  induction n with
  | zero => rfl
  | succ n ih =>
    simp only [failedRounds, sleeps, List.filterMap_append] at ih ⊢
    rw [ih, List.replicate_succ']
    rfl

/-- The lookup at which the loop stops, if there is one: the first `k` at which the lookup
succeeds or the signal has fired. -/
theorem exists_first_stop (ctx : Context) (client : Client) (hash : String) (k : Nat)
    (h : (∃ rc, client.TransactionReceipt hash k = Except.ok rc) ∨ ctx.Done k = true) :
    ∃ j, j ≤ k ∧
      ((∃ rc, client.TransactionReceipt hash j = Except.ok rc) ∨ ctx.Done j = true) ∧
      (∀ i, i < j → ∃ e, client.TransactionReceipt hash i = Except.error e) ∧
      (∀ i, i < j → ctx.Done i = false) := by
  induction k using Nat.strong_induction_on with
  | _ k ih =>
    by_cases hex : ∃ j, j < k ∧
        ((∃ rc, client.TransactionReceipt hash j = Except.ok rc) ∨ ctx.Done j = true)
    · obtain ⟨j, hj, hP⟩ := hex
      obtain ⟨j2, hj2, hrest⟩ := ih j hj hP
      exact ⟨j2, by omega, hrest⟩
    · refine ⟨k, le_refl k, h, ?_, ?_⟩
      · intro i hi
        cases hr : client.TransactionReceipt hash i with
        | error e => exact ⟨e, rfl⟩
        | ok rc => exact absurd ⟨i, hi, Or.inl ⟨rc, hr⟩⟩ hex
      · intro i hi
        cases hd : ctx.Done i with
        | false => rfl
        | true => exact absurd ⟨i, hi, Or.inr hd⟩ hex

/-- Every way `bindWaitMined` returns: at some lookup `k`, after `k` failed rounds, either
with the receipt of lookup `k`, or with the context error at the check after the failed
lookup `k`. -/
theorem bindWaitMined_returned_cases (ctx : Context) (client : Client) (hash : String) :
    ∀ (fuel : Nat) (r : Option Receipt) (e : Option GoError) (t : List Event),
      bindWaitMined ctx client hash fuel = Progress.returned r e t →
      ∃ k, k < fuel ∧
        (∀ i, i < k → ∃ er, client.TransactionReceipt hash i = Except.error er) ∧
        (∀ i, i < k → ctx.Done i = false) ∧
        ((∃ rc, client.TransactionReceipt hash k = Except.ok rc ∧ r = some rc ∧ e = none ∧
            t = failedRounds hash k ++ [Event.lookup hash k]) ∨
          ((∃ er, client.TransactionReceipt hash k = Except.error er) ∧ ctx.Done k = true ∧
            r = none ∧ e = ctx.Err k ∧
            t = failedRounds hash k ++
              [Event.lookup hash k, Event.println "Waiting for transaction to be mined...",
                Event.select k])) := by
  intro fuel r e t hret
  by_cases hstop : ∃ k, k < fuel ∧
      ((∃ rc, client.TransactionReceipt hash k = Except.ok rc) ∨ ctx.Done k = true)
  · obtain ⟨k, hk, hP⟩ := hstop
    obtain ⟨j, hj, hPj, hfail, hlive⟩ := exists_first_stop ctx client hash k hP
    refine ⟨j, by omega, hfail, hlive, ?_⟩
    cases hr : client.TransactionReceipt hash j with
    | ok rc =>
      left
      have := bindWaitMined_ok ctx client hash j rc hfail hlive hr fuel (by omega)
      rw [this] at hret
      injection hret with h1 h2 h3
      exact ⟨rc, rfl, h1.symm, h2.symm, h3.symm⟩
    | error er =>
      right
      have hd : ctx.Done j = true := by
        rcases hPj with ⟨rc, hrc⟩ | hd
        · rw [hr] at hrc; cases hrc
        · exact hd
      have hfail2 : ∀ i, i ≤ j → ∃ e, client.TransactionReceipt hash i = Except.error e := by
        intro i hi
        rcases Nat.lt_or_eq_of_le hi with h | h
        · exact hfail i h
        · exact ⟨er, by rw [h, hr]⟩
      have := bindWaitMined_cancelled ctx client hash j hfail2 hlive hd fuel (by omega)
      rw [this] at hret
      injection hret with h1 h2 h3
      exact ⟨⟨er, rfl⟩, hd, h1.symm, h2.symm, h3.symm⟩
  · exfalso
    have hfail : ∀ i, i < fuel → ∃ er, client.TransactionReceipt hash i = Except.error er := by
      intro i hi
      cases hr : client.TransactionReceipt hash i with
      | error er => exact ⟨er, rfl⟩
      | ok rc => exact absurd ⟨i, hi, Or.inl ⟨rc, hr⟩⟩ hstop
    have hlive : ∀ i, i < fuel → ctx.Done i = false := by
      intro i hi
      cases hd : ctx.Done i with
      | false => rfl
      | true => exact absurd ⟨i, hi, Or.inr hd⟩ hstop
    rw [bindWaitMined_running ctx client hash fuel hfail hlive] at hret
    cases hret

theorem loopBody_events (ctx : Context) (client : Client) (hash : String) (n : Nat)
    (t : List Event) :
    ∃ rest, (loopBody ctx client hash n t).events = t ++ Event.lookup hash n :: rest ∧
      (rest = [] ∨ ∃ er, client.TransactionReceipt hash n = Except.error er) := by
  cases hr : client.TransactionReceipt hash n with
  | ok rc =>
    refine ⟨[], ?_, Or.inl rfl⟩
    rw [loopBody_ok ctx client hash n t rc hr]
    rfl
  | error er =>
    cases hd : ctx.Done n with
    | true =>
      refine ⟨[Event.println "Waiting for transaction to be mined...", Event.select n], ?_,
        Or.inr ⟨er, rfl⟩⟩
      rw [loopBody_cancelled ctx client hash n t er hr hd]
      rfl
    | false =>
      refine ⟨[Event.println "Waiting for transaction to be mined...", Event.select n,
        Event.sleep Second], ?_, Or.inr ⟨er, rfl⟩⟩
      rw [loopBody_retry ctx client hash n t er hr hd]
      rfl

theorem bindWaitMinedFrom_one_events (ctx : Context) (client : Client) (hash : String) (n : Nat)
    (t : List Event) :
    (bindWaitMinedFrom ctx client hash 1 n t).events = (loopBody ctx client hash n t).events := by
  simp only [bindWaitMinedFrom]
  cases loopBody ctx client hash n t <;> rfl

theorem bindWaitMinedFrom_events (ctx : Context) (client : Client) (hash : String) :
    ∀ (g m : Nat) (t : List Event),
      ∃ rest, (bindWaitMinedFrom ctx client hash g m t).events = t ++ rest := by
  intro g
  induction g with
  | zero => intro m t; exact ⟨[], by simp [bindWaitMinedFrom, Progress.events]⟩
  | succ g ih =>
    intro m t
    obtain ⟨rest, hrest, _⟩ := loopBody_events ctx client hash m t
    simp only [bindWaitMinedFrom]
    cases hb : loopBody ctx client hash m t with
    | running n2 t2 =>
      rw [hb] at hrest
      obtain ⟨rest2, h2⟩ := ih n2 t2
      simp only [Progress.events] at hrest
      refine ⟨Event.lookup hash m :: rest ++ rest2, ?_⟩
      rw [h2, hrest, List.append_assoc]
    | returned r e t2 =>
      rw [hb] at hrest
      exact ⟨_, hrest⟩

theorem bindWaitMined_first_event (ctx : Context) (client : Client) (hash : String) (fuel : Nat)
    (hfuel : 0 < fuel) :
    ∃ rest, (bindWaitMined ctx client hash fuel).events = Event.lookup hash 0 :: rest := by
  obtain ⟨f, rfl⟩ : ∃ f, fuel = f + 1 := ⟨fuel - 1, by omega⟩
  obtain ⟨rest, hrest, _⟩ := loopBody_events ctx client hash 0 []
  simp only [bindWaitMined, bindWaitMinedFrom]
  cases hb : loopBody ctx client hash 0 [] with
  | running n2 t2 =>
    rw [hb] at hrest
    obtain ⟨rest2, h2⟩ := bindWaitMinedFrom_events ctx client hash f n2 t2
    simp only [Progress.events] at hrest
    refine ⟨rest ++ rest2, ?_⟩
    rw [h2, hrest, List.nil_append, List.cons_append]
  | returned r e t2 =>
    rw [hb] at hrest
    exact ⟨rest, hrest⟩

theorem Quo_wei_prec (w : Int) (h0 : 0 ≤ w) (h63 : w < 2 ^ 63) :
    ∃ e, Quo (SetInt w) (NewFloat lit1e18) = Except.ok e ∧ e.prec = 64 := by
  have hb : bitLen w.natAbs ≤ 64 := (bitLen_le_iff _ 64).2 (by omega)
  rcases eq_or_ne w 0 with hz | hz
  · subst hz
    exact ⟨_, rfl, rfl⟩
  · obtain ⟨K, _, hquo⟩ := Quo_wei w hz (by simp only [MaxExp]; omega)
    exact ⟨_, hquo, max_eq_right hb⟩

/-! ## Lemmas on the program -/

theorem weiToEther_value : weiToEther 10000000000000000 = Except.ok "0.010000000000000000" := by
  rfl

theorem calls_append (a b : List MainEvent) : calls (a ++ b) = calls a ++ calls b := by
  simp [calls, List.filterMap_append]

theorem calls_nil : calls [] = [] := rfl

theorem calls_cons_call (s : Step) (t : List MainEvent) :
    calls (MainEvent.call s :: t) = s :: calls t := rfl

theorem calls_cons_print (f : String) (a : List String) (t : List MainEvent) :
    calls (MainEvent.print f a :: t) = calls t := rfl

theorem calls_cons_close (t : List MainEvent) : calls (MainEvent.close :: t) = calls t := rfl

theorem calls_map_wait (es : List Event) : calls (es.map MainEvent.wait) = [] := by
  induction es with
  | nil => rfl
  | cons e es ih => exact ih

theorem printed_append (a b : List MainEvent) : printed (a ++ b) = printed a ++ printed b := by
  simp [printed, List.filterMap_append]

theorem printed_nil : printed [] = [] := rfl

theorem printed_cons_call (s : Step) (t : List MainEvent) :
    printed (MainEvent.call s :: t) = printed t := rfl

theorem printed_cons_print (f : String) (a : List String) (t : List MainEvent) :
    printed (MainEvent.print f a :: t) = f :: printed t := rfl

theorem printed_cons_close (t : List MainEvent) : printed (MainEvent.close :: t) = printed t := rfl

theorem printed_map_wait (es : List Event) : printed (es.map MainEvent.wait) = [] := by
  induction es with
  | nil => rfl
  | cons e es ih => exact ih

/-- The steps a run started are an initial segment of the program, whatever happens. -/
theorem calls_main_initial_segment (w : World) (fuel : Nat) : calls (main w fuel).trace <+: stepOrder := by
  unfold main
  simp only [weiToEther_value]
  repeat' split
  all_goals simp only [calls_append, calls_nil, calls_cons_call, calls_cons_print,
    calls_cons_close, calls_map_wait, List.append_nil, List.cons_append, List.nil_append,
    stepOrder]
  all_goals decide

theorem main_fatal_at_failed_step (w : World) (fuel : Nat) (f : String) (args : List String) :
    (main w fuel).exit = Exit.fatal f args →
    ∃ s0, (calls (main w fuel).trace).getLast? = some s0 ∧ f = fatalFormat s0 ∧
      stepFails w fuel s0 ∧ calls (main w fuel).trace = stepsUpTo s0 := by
  unfold main
  simp only [weiToEther_value]
  repeat' split
  all_goals simp only [calls_append, calls_nil, calls_cons_call, calls_cons_print,
    calls_cons_close, calls_map_wait, List.append_nil, List.cons_append, List.nil_append,
    List.getLast?, List.getLast, Option.some.injEq, exists_eq_left', Exit.fatal.injEq,
    reduceCtorEq, false_implies]
  all_goals
    intro h
    exact ⟨h.1.symm, by simp [stepFails, signedTxHash, *], rfl⟩

/-- A step that was started and fails is the last step started. -/
theorem main_failed_step_is_last (w : World) (fuel : Nat) (s : Step) :
    s ∈ calls (main w fuel).trace → stepFails w fuel s →
    (calls (main w fuel).trace).getLast? = some s := by
  unfold main
  simp only [weiToEther_value]
  repeat' split
  all_goals simp only [calls_append, calls_nil, calls_cons_call, calls_cons_print,
    calls_cons_close, calls_map_wait, List.append_nil, List.cons_append, List.nil_append,
    List.getLast?, List.getLast, Option.some.injEq]
  all_goals
    intro hmem hs
    cases s <;> first
      | rfl
      | (exfalso; simp at hmem; done)
      | (exfalso; simp [stepFails, signedTxHash, *] at hs)

/-- If a step fails, the run ends fatally. -/
theorem main_fatal_of_fails (w : World) (fuel : Nat) (s : Step) (hs : stepFails w fuel s) :
    ∃ f args, (main w fuel).exit = Exit.fatal f args := by
  revert hs
  unfold main
  simp only [weiToEther_value]
  repeat' split
  all_goals first
    | (intro _; exact ⟨_, _, rfl⟩)
    | (intro hs; exfalso; cases s <;> simp [stepFails, signedTxHash, *] at hs)

theorem main_send_after_success (w : World) (fuel : Nat) :
    Step.SendTransaction ∈ calls (main w fuel).trace →
    (∃ u, w.Dial = Except.ok u) ∧ (∃ u, w.HexToECDSA = Except.ok u) ∧
      w.PublicKeyIsECDSA = true ∧ (∃ n, w.PendingNonceAt = Except.ok n) ∧
      (∃ g, w.SuggestGasPrice = Except.ok g) ∧ (∃ c, w.NetworkID = Except.ok c) ∧
      (∃ h, w.SignTx = Except.ok h) := by
  unfold main
  simp only [weiToEther_value]
  repeat' split
  all_goals simp only [calls_append, calls_nil, calls_cons_call, calls_cons_print,
    calls_cons_close, calls_map_wait, List.append_nil, List.cons_append, List.nil_append]
  all_goals
    intro hmem
    first
      | (exfalso; simp at hmem; done)
      | simp [*]

theorem main_mined_after_status (w : World) (fuel : Nat) :
    "Transaction mined! Block Number: %v\n" ∈ printed (main w fuel).trace →
    (main w fuel).exit = Exit.done ∧
      ∃ rc t, bindWaitMined Background w.client (signedTxHash w) fuel
          = Progress.returned (some rc) none t ∧ rc.Status ≠ ReceiptStatusFailed := by
  unfold main
  simp only [weiToEther_value]
  repeat' split
  all_goals simp only [printed_append, printed_nil, printed_cons_call, printed_cons_print,
    printed_cons_close, printed_map_wait, List.append_nil, List.cons_append, List.nil_append]
  all_goals
    intro hmem
    first
      | (exfalso; revert hmem; decide)
      | simp [signedTxHash, *]

theorem main_wait_outcome (w : World) (fuel : Nat) :
    Step.WaitMined ∈ calls (main w fuel).trace →
    (main w fuel).exit = Exit.polling ∨
      ∃ r e t, bindWaitMined Background w.client (signedTxHash w) fuel
        = Progress.returned r e t := by
  unfold main
  simp only [weiToEther_value]
  repeat' split
  all_goals simp only [calls_append, calls_nil, calls_cons_call, calls_cons_print,
    calls_cons_close, calls_map_wait, List.append_nil, List.cons_append, List.nil_append]
  all_goals simp [signedTxHash, *]

theorem main_amount_line (w : World) (fuel : Nat) :
    (∀ args, MainEvent.print "ETH transfer amount: %s\n" args ∈ (main w fuel).trace →
        args = ["0.010000000000000000"]) ∧
      (Step.SuggestGasPrice ∈ calls (main w fuel).trace →
        MainEvent.print "ETH transfer amount: %s\n" ["0.010000000000000000"]
          ∈ (main w fuel).trace) := by
  unfold main
  simp only [weiToEther_value]
  repeat' split
  all_goals simp only [calls_append, calls_nil, calls_cons_call, calls_cons_print,
    calls_cons_close, calls_map_wait, List.append_nil, List.cons_append, List.nil_append]
  all_goals
    constructor
    · intro args hmem
      first
        | (simp at hmem; done)
        | (simp at hmem; exact hmem)
    · simp

theorem main_reaches_gas_price (w : World) (fuel : Nat) (u1 u2 : Unit) (n : Nat)
    (hD : w.Dial = Except.ok u1) (hK : w.HexToECDSA = Except.ok u2)
    (hC : w.PublicKeyIsECDSA = true) (hN : w.PendingNonceAt = Except.ok n) :
    Step.SuggestGasPrice ∈ calls (main w fuel).trace := by
  unfold main
  simp only [weiToEther_value, hD, hK, hC, hN]
  repeat' split
  all_goals simp only [calls_append, calls_nil, calls_cons_call, calls_cons_print,
    calls_cons_close, calls_map_wait, List.append_nil, List.cons_append, List.nil_append]
  all_goals simp

theorem stepOrder_nodup : stepOrder.Nodup := by decide

theorem fatalFormat_wait (s : Step)
    (h : "Failed to wait for transaction to be mined: %v" = fatalFormat s) :
    s = Step.WaitMined := by
  cases s <;> first | rfl | exact absurd h (by decide)

theorem stepIndex_le_of_not_mem (s s0 : Step) (h : s ∉ stepsUpTo s0) :
    stepIndex s0 ≤ stepIndex s := by
  cases s <;> cases s0 <;> first | decide | exact absurd h (by decide)

/-- Under `context.Background()` the loop never returns an error and never a nil receipt. -/
theorem bindWaitMined_background (client : Client) (hash : String) (fuel : Nat)
    (r : Option Receipt) (e : Option GoError) (t : List Event)
    (h : bindWaitMined Background client hash fuel = Progress.returned r e t) :
    e = none ∧ ∃ k rc, client.TransactionReceipt hash k = Except.ok rc ∧ r = some rc := by
  obtain ⟨k, _, _, _, hcase⟩ := bindWaitMined_returned_cases Background client hash fuel r e t h
  rcases hcase with ⟨rc, hrc, hr, he, _⟩ | ⟨_, hd, _⟩
  · exact ⟨he, k, rc, hrc, hr⟩
  · exact absurd hd (by simp [Background])

/-! ## The claims -/

/-- C1, as stated, fails: the amount `w = 2 ^ 2147483647` has a bit length of `2 ^ 31`, one
more than `MaxExp`, so `SetInt` overflows to `+Inf` and `weiToEther w` is the string `+Inf`,
which has no point and no 18 fractional digits. -/
theorem weiToEther_inf_at_two_pow_max_exp :
    weiToEther ((2 ^ 2147483647 : Nat) : Int) = Except.ok "+Inf" ∧ ¬ FixedPoint18 "+Inf" := by
  refine ⟨weiToEther_overflow_two_pow 2147483647 rfl, ?_⟩
  · rintro ⟨sign, ip, fp, h, -⟩
    have hd : ("+Inf" : String).data = sign ++ ip ++ '.' :: fp := by rw [h]
    have hmem : '.' ∈ ("+Inf" : String).data := by
      rw [hd]
      simp
    exact absurd hmem (by decide)

/-- C1, amended: for every integer Wei amount `w` whose bit length is at most `MaxExp`
(that is, `|w| < 2 ^ 2147483647`), `weiToEther w` returns a string made of an optional
leading minus sign, one or more decimal digits, one point, and exactly 18 decimal digits;
there is no exponent and never another number of fractional digits. -/
theorem weiToEther_fixed_18_decimals (w : Int) (hb : (bitLen w.natAbs : Int) ≤ MaxExp) :
    ∃ s, weiToEther w = Except.ok s ∧ FixedPoint18 s := by
  obtain ⟨r, hr⟩ := weiToEther_shape w hb
  refine ⟨_, hr, if w < 0 then ['-'] else [], Nat.toDigits 10 (r / 10 ^ 18), fracDigits 18 r, ?_,
    ?_, toDigits_ne_nil _, toDigits_isDigit _, fracDigits_length 18 r, fracDigits_isDigit 18 r⟩
  · simp [fmtF]
  · split_ifs
    · exact Or.inr rfl
    · exact Or.inl rfl

theorem weiToEther_fixed_18_decimals_witness :
    (bitLen (-123456789012345678901234567890 : Int).natAbs : Int) ≤ MaxExp ∧
      ∃ s, weiToEther (-123456789012345678901234567890) = Except.ok s ∧ FixedPoint18 s :=
  have h : (bitLen (-123456789012345678901234567890 : Int).natAbs : Int) ≤ MaxExp := by
    have h97 : bitLen 123456789012345678901234567890 ≤ 97 :=
      (bitLen_le_iff _ 97).2 (by norm_num)
    have habs : (-123456789012345678901234567890 : Int).natAbs
        = 123456789012345678901234567890 := rfl
    rw [habs]
    simp only [MaxExp]
    omega
  ⟨h, weiToEther_fixed_18_decimals (-123456789012345678901234567890) h⟩

/-- C3, as stated, fails: at `w = 16 * 10 ^ 18 + 1` Wei the 64-bit quotient is off by more than
half a unit of the 18th decimal, `weiToEther` prints `16.000000000000000002`, which is not
the expansion `16.000000000000000001` of `w / 10 ^ 18` and does not read as `w / 10 ^ 18`. -/
theorem weiToEther_inexact_at_16_ether_plus_1 :
    weiToEther 16000000000000000001 = Except.ok "16.000000000000000002" ∧
      etherString 16000000000000000001 = "16.000000000000000001" ∧
      weiToEther 16000000000000000001 ≠ Except.ok (etherString 16000000000000000001) ∧
      readDecimal "16.000000000000000002" ≠ (16000000000000000001 : ℚ) / 10 ^ 18 := by
  have h1 : weiToEther 16000000000000000001 = Except.ok "16.000000000000000002" := by rfl
  have h2 : etherString 16000000000000000001 = "16.000000000000000001" := by rfl
  have h3 : ("16.000000000000000002" : String) = String.mk (fmtF 18 16000000000000000002) := by
    rfl
  refine ⟨h1, h2, ?_, ?_⟩
  · rw [h1, h2]
    intro h
    injection h with h
    exact absurd h (by decide)
  · rw [h3, readDecimal_fmtF]
    norm_num

/-- C3, amended: for every Wei amount `0 ≤ w ≤ 16 * 10 ^ 18`, the string `weiToEther w` is
the exact expansion of `w / 10 ^ 18` (integer part `w div 10 ^ 18`, then `w mod 10 ^ 18` on 18
digits with leading zeros), and read as a decimal number it is `w / 10 ^ 18`. -/
theorem weiToEther_exact_up_to_16_ether (w : Nat) (hw : w ≤ 16 * 10 ^ 18) :
    weiToEther (w : Int) = Except.ok (etherString w) ∧
      readDecimal (etherString w) = (w : ℚ) / 10 ^ 18 := by
  rw [← fmtF_eq_etherString]
  refine ⟨?_, readDecimal_fmtF w⟩
  rcases Nat.lt_or_eq_of_le hw with h | h
  · exact weiToEther_of_lt w h
  · rw [h]
    rfl

theorem weiToEther_exact_up_to_16_ether_witness :
    (15999999999999999999 : Nat) ≤ 16 * 10 ^ 18 ∧
      weiToEther ((15999999999999999999 : Nat) : Int)
        = Except.ok (etherString 15999999999999999999) ∧
      readDecimal (etherString 15999999999999999999) = ((15999999999999999999 : Nat) : ℚ) / 10 ^ 18 :=
  ⟨by norm_num, weiToEther_exact_up_to_16_ether 15999999999999999999 (by norm_num)⟩

/-- C9: for every `w` with `0 ≤ w < 2 ^ 63` the quotient is rounded to a 64-bit mantissa and
the two roundings lose nothing: `weiToEther w` is the exact expansion of `w / 10 ^ 18`, which
reads as `w / 10 ^ 18`; in particular `weiToEther 0` is `0.000000000000000000` and
`weiToEther 1` is `0.000000000000000001`. -/
theorem weiToEther_exact_int64 (w : Int) (h0 : 0 ≤ w) (h63 : w < 2 ^ 63) :
    (∃ e, Quo (SetInt w) (NewFloat lit1e18) = Except.ok e ∧ e.prec = 64) ∧
      weiToEther w = Except.ok (etherString w.toNat) ∧
      readDecimal (etherString w.toNat) = (w : ℚ) / 10 ^ 18 ∧
      weiToEther 0 = Except.ok "0.000000000000000000" ∧
      weiToEther 1 = Except.ok "0.000000000000000001" := by
  refine ⟨Quo_wei_prec w h0 h63, ?_, ?_, by rfl, by rfl⟩
  · have hlt : w.toNat < 16 * 10 ^ 18 := by omega
    have := weiToEther_of_lt w.toNat hlt
    rw [Int.toNat_of_nonneg h0] at this
    rw [this, fmtF_eq_etherString]
  · obtain ⟨n, rfl⟩ := Int.eq_ofNat_of_zero_le h0
    rw [← fmtF_eq_etherString, readDecimal_fmtF, Int.toNat_ofNat, Int.cast_natCast]

theorem weiToEther_exact_int64_witness :
    (0 : Int) ≤ 9223372036854775807 ∧ (9223372036854775807 : Int) < 2 ^ 63 ∧
      weiToEther 9223372036854775807 = Except.ok "9.223372036854775807" := by
  have h := weiToEther_exact_int64 9223372036854775807 (by norm_num) (by norm_num)
  exact ⟨by norm_num, by norm_num, h.2.1.trans (by rfl)⟩

/-- C4: if lookup `k` is the first that succeeds and the cancellation signal has not fired
at any of the checks after the `k` earlier failed lookups, then `bindWaitMined` (observed for
more than `k` iterations) returns exactly the receipt of lookup `k` with a nil error; lookup
`k` is its last event, so nothing is slept or looked up after it: the lookups made are
`0, ..., k` and the sleeps are the `k` one-second pauses of the failed rounds. -/
theorem bindWaitMined_returns_first_receipt (ctx : Context) (client : Client) (hash : String)
    (k : Nat) (receipt : Receipt)
    (hfail : ∀ i, i < k → ∃ e, client.TransactionReceipt hash i = Except.error e)
    (hlive : ∀ i, i < k → ctx.Done i = false)
    (hok : client.TransactionReceipt hash k = Except.ok receipt) :
    ∀ fuel, k < fuel →
      bindWaitMined ctx client hash fuel
        = Progress.returned (some receipt) none (failedRounds hash k ++ [Event.lookup hash k]) ∧
      lookups (failedRounds hash k ++ [Event.lookup hash k]) = List.range (k + 1) ∧
      sleeps (failedRounds hash k ++ [Event.lookup hash k]) = List.replicate k Second := by
  intro fuel hfuel
  refine ⟨bindWaitMined_ok ctx client hash k receipt hfail hlive hok fuel hfuel, ?_, ?_⟩
  · have h := lookups_failedRounds hash k
    simp only [lookups, List.filterMap_append] at h ⊢
    rw [h, List.range_succ]
    rfl
  · have h := sleeps_failedRounds hash k
    simp only [sleeps, List.filterMap_append] at h ⊢
    rw [h]
    simp

theorem bindWaitMined_returns_first_receipt_witness :
    bindWaitMined Background demoWorld.client "0xhash" 3
        = Progress.returned (some ⟨1, 42⟩) none
            (failedRounds "0xhash" 2 ++ [Event.lookup "0xhash" 2]) ∧
      lookups (failedRounds "0xhash" 2 ++ [Event.lookup "0xhash" 2]) = List.range (2 + 1) ∧
      sleeps (failedRounds "0xhash" 2 ++ [Event.lookup "0xhash" 2]) = List.replicate 2 Second :=
  bindWaitMined_returns_first_receipt Background demoWorld.client "0xhash" 2 ⟨1, 42⟩
    (fun i hi => ⟨"not found", by simp [demoWorld, hi]⟩) (fun _ _ => rfl)
    (by simp [demoWorld]) 3 (by decide)

/-- C5: if every lookup up to and including lookup `k` fails and the cancellation signal is
first seen fired at the check after lookup `k`, then `bindWaitMined` (observed for more than
`k` iterations) returns a nil receipt with the context error `ctx.Err()`; the `select` of
round `k` is its last event, so no further lookup or sleep is made: the lookups are
`0, ..., k` and the sleeps the `k` pauses of the earlier rounds. -/
theorem bindWaitMined_returns_context_error (ctx : Context) (client : Client) (hash : String)
    (k : Nat)
    (hfail : ∀ i, i ≤ k → ∃ e, client.TransactionReceipt hash i = Except.error e)
    (hlive : ∀ i, i < k → ctx.Done i = false)
    (hdone : ctx.Done k = true) :
    ∀ fuel, k < fuel →
      bindWaitMined ctx client hash fuel
        = Progress.returned none (ctx.Err k)
            (failedRounds hash k ++
              [Event.lookup hash k, Event.println "Waiting for transaction to be mined...",
                Event.select k]) ∧
      lookups (failedRounds hash k ++
          [Event.lookup hash k, Event.println "Waiting for transaction to be mined...",
            Event.select k]) = List.range (k + 1) ∧
      sleeps (failedRounds hash k ++
          [Event.lookup hash k, Event.println "Waiting for transaction to be mined...",
            Event.select k]) = List.replicate k Second := by
  intro fuel hfuel
  refine ⟨bindWaitMined_cancelled ctx client hash k hfail hlive hdone fuel hfuel, ?_, ?_⟩
  · have h := lookups_failedRounds hash k
    simp only [lookups, List.filterMap_append] at h ⊢
    rw [h, List.range_succ]
    rfl
  · have h := sleeps_failedRounds hash k
    simp only [sleeps, List.filterMap_append] at h ⊢
    rw [h]
    simp

theorem bindWaitMined_returns_context_error_witness :
    bindWaitMined deadlineContext pendingClient "0xhash" 5
        = Progress.returned none (some "context deadline exceeded")
            (failedRounds "0xhash" 2 ++
              [Event.lookup "0xhash" 2, Event.println "Waiting for transaction to be mined...",
                Event.select 2]) :=
  (bindWaitMined_returns_context_error deadlineContext pendingClient "0xhash" 2
    (fun _ _ => ⟨"not found", rfl⟩) (fun i hi => by simp [deadlineContext, hi])
    (by decide) 5 (by decide)).1

/-- C7: cancellation is looked at only at the check that follows a failed lookup.  Every
iteration starts with its lookup, and whatever follows in it (the message, the `select`, the
sleep) happens only when that lookup failed; with any observation at all the first event is
lookup 0; a lookup that succeeds returns its receipt with a nil error whatever the signal
says, also under a context that was cancelled before the call; and every return of
`bindWaitMined` is either such a success or a cancellation seen at the `select` right after
a failed lookup. -/
theorem bindWaitMined_cancellation_only_after_failed_lookup (ctx : Context) (client : Client)
    (hash : String) :
    (∀ n t, ∃ rest, (loopBody ctx client hash n t).events = t ++ Event.lookup hash n :: rest ∧
        (rest = [] ∨ ∃ er, client.TransactionReceipt hash n = Except.error er)) ∧
    (∀ fuel, 0 < fuel →
        ∃ rest, (bindWaitMined ctx client hash fuel).events = Event.lookup hash 0 :: rest) ∧
    (∀ n t rc, client.TransactionReceipt hash n = Except.ok rc →
        loopBody ctx client hash n t
          = Progress.returned (some rc) none (t ++ [Event.lookup hash n])) ∧
    (∀ rc, client.TransactionReceipt hash 0 = Except.ok rc → (∀ i, ctx.Done i = true) →
        ∀ fuel, 0 < fuel →
          bindWaitMined ctx client hash fuel
            = Progress.returned (some rc) none [Event.lookup hash 0]) ∧
    (∀ fuel r e t, bindWaitMined ctx client hash fuel = Progress.returned r e t →
        ∃ k, k < fuel ∧
          ((∃ rc, client.TransactionReceipt hash k = Except.ok rc ∧ r = some rc ∧ e = none ∧
              t = failedRounds hash k ++ [Event.lookup hash k]) ∨
            ((∃ er, client.TransactionReceipt hash k = Except.error er) ∧ ctx.Done k = true ∧
              r = none ∧ e = ctx.Err k ∧
              t = failedRounds hash k ++
                [Event.lookup hash k, Event.println "Waiting for transaction to be mined...",
                  Event.select k]))) := by
  refine ⟨loopBody_events ctx client hash, bindWaitMined_first_event ctx client hash,
    fun n t rc h => loopBody_ok ctx client hash n t rc h, ?_, ?_⟩
  · intro rc hok _ fuel hfuel
    exact bindWaitMined_ok ctx client hash 0 rc (fun i hi => absurd hi (by omega))
      (fun i hi => absurd hi (by omega)) hok fuel hfuel
  · intro fuel r e t hret
    obtain ⟨k, hk, _, _, h⟩ := bindWaitMined_returned_cases ctx client hash fuel r e t hret
    exact ⟨k, hk, h⟩

theorem bindWaitMined_cancellation_only_after_failed_lookup_witness :
    bindWaitMined cancelledContext ⟨fun _ _ => Except.ok ⟨1, 42⟩⟩ "0xhash" 1
      = Progress.returned (some ⟨1, 42⟩) none [Event.lookup "0xhash" 0] :=
  (bindWaitMined_cancellation_only_after_failed_lookup cancelledContext
    ⟨fun _ _ => Except.ok ⟨1, 42⟩⟩ "0xhash").2.2.2.1 ⟨1, 42⟩ rfl (fun _ => rfl) 1 (by decide)

/-- C8: the loop retries at a fixed interval of one second, without backoff and without a
maximum.  If the first `n` lookups fail and the signal has not fired at any of the `n`
checks, then after `n` iterations the loop is still running, its next event is lookup `n`,
and so far it has made the lookups `0, ..., n - 1` and slept exactly `n` times, `time.Second`
(`10 ^ 9` ns) each, once after every failed round.  If at step `k` a lookup succeeds or the
signal has fired, the loop has returned after at most `k + 1` iterations and lookups, and
stays returned; if neither ever happens, it is still running after any number of
iterations. -/
theorem bindWaitMined_fixed_interval_no_bound (ctx : Context) (client : Client) (hash : String) :
    (∀ n, (∀ i, i < n → ∃ e, client.TransactionReceipt hash i = Except.error e) →
        (∀ i, i < n → ctx.Done i = false) →
        bindWaitMined ctx client hash n = Progress.running n (failedRounds hash n) ∧
        (∃ rest, (bindWaitMined ctx client hash (n + 1)).events
            = failedRounds hash n ++ Event.lookup hash n :: rest) ∧
        failedRounds hash (n + 1) = failedRounds hash n ++
          [Event.lookup hash n, Event.println "Waiting for transaction to be mined...",
            Event.select n, Event.sleep Second] ∧
        lookups (failedRounds hash n) = List.range n ∧
        sleeps (failedRounds hash n) = List.replicate n Second ∧ Second = 10 ^ 9) ∧
    (∀ k, ((∃ rc, client.TransactionReceipt hash k = Except.ok rc) ∨ ctx.Done k = true) →
        ∃ fuel r e t, fuel ≤ k + 1 ∧ (lookups t).length ≤ k + 1 ∧
          ∀ fuel2, fuel ≤ fuel2 → bindWaitMined ctx client hash fuel2 = Progress.returned r e t) ∧
    ((∀ i, ∃ e, client.TransactionReceipt hash i = Except.error e) →
        (∀ i, ctx.Done i = false) →
        ∀ fuel, bindWaitMined ctx client hash fuel
          = Progress.running fuel (failedRounds hash fuel)) := by
  refine ⟨?_, ?_, ?_⟩
  · intro n hfail hlive
    have hrun := bindWaitMined_running ctx client hash n hfail hlive
    refine ⟨hrun, ?_, rfl, lookups_failedRounds hash n, sleeps_failedRounds hash n, by rfl⟩
    obtain ⟨rest, hrest, _⟩ := loopBody_events ctx client hash n (failedRounds hash n)
    refine ⟨rest, ?_⟩
    unfold bindWaitMined at hrun ⊢
    rw [bindWaitMinedFrom_add, hrun]
    simp only
    rw [bindWaitMinedFrom_one_events, hrest]
  · intro k hk
    obtain ⟨j, hj, hPj, hfail, hlive⟩ := exists_first_stop ctx client hash k hk
    have hlen : ∀ extra : List Event, lookups extra = [j] →
        (lookups (failedRounds hash j ++ extra)).length ≤ k + 1 := by
      intro extra hextra
      have h := lookups_failedRounds hash j
      simp only [lookups, List.filterMap_append] at h hextra ⊢
      rw [h, hextra]
      simp
      omega
    cases hr : client.TransactionReceipt hash j with
    | ok rc =>
      exact ⟨j + 1, some rc, none, failedRounds hash j ++ [Event.lookup hash j], by omega,
        hlen _ rfl, fun fuel2 h2 => bindWaitMined_ok ctx client hash j rc hfail hlive hr fuel2 (by omega)⟩
    | error er =>
      have hd : ctx.Done j = true := by
        rcases hPj with ⟨rc, hrc⟩ | hd
        · rw [hr] at hrc; cases hrc
        · exact hd
      have hfail2 : ∀ i, i ≤ j → ∃ e, client.TransactionReceipt hash i = Except.error e := by
        intro i hi
        rcases Nat.lt_or_eq_of_le hi with h | h
        · exact hfail i h
        · exact ⟨er, by rw [h, hr]⟩
      exact ⟨j + 1, none, ctx.Err j, failedRounds hash j ++
        [Event.lookup hash j, Event.println "Waiting for transaction to be mined...",
          Event.select j], by omega, hlen _ rfl, fun fuel2 h2 => bindWaitMined_cancelled ctx client hash j hfail2 hlive hd fuel2 (by omega)⟩
  · intro hfail hlive fuel
    exact bindWaitMined_running ctx client hash fuel (fun i _ => hfail i) (fun i _ => hlive i)

theorem bindWaitMined_fixed_interval_no_bound_witness :
    bindWaitMined Background pendingClient "0xhash" 3
        = Progress.running 3 (failedRounds "0xhash" 3) ∧
      sleeps (failedRounds "0xhash" 3) = [1000000000, 1000000000, 1000000000] :=
  have h := (bindWaitMined_fixed_interval_no_bound Background pendingClient "0xhash").1 3
    (fun _ _ => ⟨"not found", rfl⟩) (fun _ _ => rfl)
  ⟨h.1, h.2.2.2.2.1.trans (by decide)⟩

/-- C2: `weiToEther` applied to the 10000000000000000 Wei that `main` transfers returns
exactly `0.010000000000000000`; every `ETH transfer amount` line that `main` prints shows
that string, and `main` prints the line whenever the steps before it (connect, key, cast,
nonce) succeed. -/
theorem weiToEther_transfer_amount :
    weiToEther 10000000000000000 = Except.ok "0.010000000000000000" ∧
    (∀ (w : World) (fuel : Nat) (args : List String),
      MainEvent.print "ETH transfer amount: %s\n" args ∈ (main w fuel).trace →
      args = ["0.010000000000000000"]) ∧
    (∀ (w : World) (fuel : Nat) (u1 u2 : Unit) (n : Nat), w.Dial = Except.ok u1 →
      w.HexToECDSA = Except.ok u2 → w.PublicKeyIsECDSA = true →
      w.PendingNonceAt = Except.ok n →
      MainEvent.print "ETH transfer amount: %s\n" ["0.010000000000000000"]
        ∈ (main w fuel).trace) :=
  ⟨weiToEther_value, fun w fuel => (main_amount_line w fuel).1,
    fun w fuel u1 u2 n hD hK hC hN =>
      (main_amount_line w fuel).2 (main_reaches_gas_price w fuel u1 u2 n hD hK hC hN)⟩

theorem weiToEther_transfer_amount_witness :
    MainEvent.print "ETH transfer amount: %s\n" ["0.010000000000000000"]
      ∈ (main demoWorld 3).trace :=
  weiToEther_transfer_amount.2.2 demoWorld 3 () () 7 rfl rfl rfl rfl

/-- C6: every failure path of `main` is immediate fatal termination.  The steps a run
starts are an initial segment of the program, each started at most once.  If any step
fails, the run ends in `log.Fatal` at a failing step `s0` no later than that step, with the
message of `s0`, having started exactly the steps up to `s0`: no later step runs and `s0`
is not retried.  A fatal end happens only at a failed step.  `SendTransaction` is called at
most once, and only after connect, key parsing, the cast, nonce, gas price, network id and
signing all succeeded; `Transaction mined!` is printed only when the run returns normally
with a receipt whose status is not `ReceiptStatusFailed`. -/
theorem main_failure_is_fatal_termination (w : World) (fuel : Nat) :
    calls (main w fuel).trace <+: stepOrder ∧ (calls (main w fuel).trace).Nodup ∧
    (∀ s, stepFails w fuel s →
      ∃ s0 args, stepFails w fuel s0 ∧ stepIndex s0 ≤ stepIndex s ∧
        (main w fuel).exit = Exit.fatal (fatalFormat s0) args ∧
        calls (main w fuel).trace = stepsUpTo s0) ∧
    (∀ f args, (main w fuel).exit = Exit.fatal f args →
      ∃ s0, stepFails w fuel s0 ∧ f = fatalFormat s0 ∧
        calls (main w fuel).trace = stepsUpTo s0) ∧
    (calls (main w fuel).trace).count Step.SendTransaction ≤ 1 ∧
    (Step.SendTransaction ∈ calls (main w fuel).trace →
      (∃ u, w.Dial = Except.ok u) ∧ (∃ u, w.HexToECDSA = Except.ok u) ∧
        w.PublicKeyIsECDSA = true ∧ (∃ n, w.PendingNonceAt = Except.ok n) ∧
        (∃ g, w.SuggestGasPrice = Except.ok g) ∧ (∃ c, w.NetworkID = Except.ok c) ∧
        (∃ h, w.SignTx = Except.ok h)) ∧
    ("Transaction mined! Block Number: %v\n" ∈ printed (main w fuel).trace →
      (main w fuel).exit = Exit.done ∧
        ∃ rc t, bindWaitMined Background w.client (signedTxHash w) fuel
            = Progress.returned (some rc) none t ∧ rc.Status ≠ ReceiptStatusFailed) := by
  have hpre := calls_main_initial_segment w fuel
  have hnodup : (calls (main w fuel).trace).Nodup := hpre.sublist.nodup stepOrder_nodup
  refine ⟨hpre, hnodup, ?_, ?_, List.nodup_iff_count_le_one.1 hnodup _,
    main_send_after_success w fuel, main_mined_after_status w fuel⟩
  · intro s hs
    obtain ⟨f, args, hexit⟩ := main_fatal_of_fails w fuel s hs
    obtain ⟨s0, hlast, hf, hfail0, hcalls⟩ := main_fatal_at_failed_step w fuel f args hexit
    refine ⟨s0, args, hfail0, ?_, by rw [hexit, hf], hcalls⟩
    by_cases hmem : s ∈ calls (main w fuel).trace
    · have := main_failed_step_is_last w fuel s hmem hs
      rw [hlast] at this
      injection this with this
      rw [this]
    · rw [hcalls] at hmem
      exact stepIndex_le_of_not_mem s s0 hmem
  · intro f args hexit
    obtain ⟨s0, _, hf, hfail0, hcalls⟩ := main_fatal_at_failed_step w fuel f args hexit
    exact ⟨s0, hfail0, hf, hcalls⟩

theorem main_failure_is_fatal_termination_witness :
    ∃ s0 args, stepFails failingWorld 3 s0 ∧ stepIndex s0 ≤ stepIndex Step.NetworkID ∧
      (main failingWorld 3).exit = Exit.fatal (fatalFormat s0) args ∧
      calls (main failingWorld 3).trace = stepsUpTo s0 :=
  (main_failure_is_fatal_termination failingWorld 3).2.2.1 Step.NetworkID ⟨"timeout", rfl⟩

/-- C10: `main` waits under `context.Background()`, whose signal never fires and whose
error is always nil.  So in that call `bindWaitMined` can return only a receipt with a nil
error, `main` never ends with `Failed to wait for transaction to be mined`, and if no
receipt lookup ever succeeds the loop is still running after any number of iterations:
a run of `main` that reaches the wait is then still polling, however long it is observed. -/
theorem main_wait_cannot_be_cancelled (client : Client) (hash : String) :
    (∀ n, Background.Done n = false ∧ Background.Err n = none) ∧
    (∀ fuel r e t, bindWaitMined Background client hash fuel = Progress.returned r e t →
      e = none ∧ ∃ k rc, client.TransactionReceipt hash k = Except.ok rc ∧ r = some rc) ∧
    ((∀ i, ∃ er, client.TransactionReceipt hash i = Except.error er) →
      ∀ fuel, bindWaitMined Background client hash fuel
        = Progress.running fuel (failedRounds hash fuel)) ∧
    (∀ (w : World) (fuel : Nat) (args : List String),
      (main w fuel).exit ≠ Exit.fatal "Failed to wait for transaction to be mined: %v" args) ∧
    (∀ w : World, (∀ i, ∃ er, w.client.TransactionReceipt (signedTxHash w) i = Except.error er) →
      ∀ fuel, Step.WaitMined ∈ calls (main w fuel).trace → (main w fuel).exit = Exit.polling) := by
  refine ⟨fun _ => ⟨rfl, rfl⟩, bindWaitMined_background client hash, ?_, ?_, ?_⟩
  · intro hfail fuel
    exact bindWaitMined_running Background client hash fuel (fun i _ => hfail i) (fun _ _ => rfl)
  · intro w fuel args hexit
    obtain ⟨s0, _, hf, hfail0, _⟩ := main_fatal_at_failed_step w fuel _ args hexit
    rw [fatalFormat_wait s0 hf] at hfail0
    obtain ⟨r, e, t, hret⟩ := hfail0
    exact absurd (bindWaitMined_background w.client _ fuel r (some e) t hret).1 (by simp)
  · intro w hfail fuel hmem
    rcases main_wait_outcome w fuel hmem with h | ⟨r, e, t, hret⟩
    · exact h
    · rw [bindWaitMined_running Background w.client _ fuel (fun i _ => hfail i)
        (fun _ _ => rfl)] at hret
      cases hret

theorem main_wait_cannot_be_cancelled_witness :
    bindWaitMined Background pendingClient "0xhash" 4
        = Progress.running 4 (failedRounds "0xhash" 4) ∧
      (main pendingWorld 4).exit = Exit.polling :=
  have h := main_wait_cannot_be_cancelled pendingClient "0xhash"
  ⟨h.2.2.1 (fun _ => ⟨"not found", rfl⟩) 4,
    h.2.2.2.2 pendingWorld (fun _ => ⟨"not found", rfl⟩) 4 (by decide)⟩

end SepoliaTransfer
